import Mathlib

/-!
Shallow embedding of the bugfruit embedded key-value store (Go sources:
meta.go, datum.go, map.go, storage.go) and proofs about its claims.

Modelling conventions:
* a Go byte is a `Nat` (well-formed values are < 256); a Go `string` and a
  Go `[]byte` are both `List Nat` of byte values;
* Go `uint32` / `uint64` arithmetic is `Nat` arithmetic with explicit
  `% 2^32` / `% 2^64` at every point where the source converts or wraps;
* the database file is its byte content, a `List Nat`; file reads and
  writes are list operations;
* each fallible operation returns the mutated state together with
  `Option Err`, because the Go code mutates the receiver before returning
  an error; operations that Go aborts construction on return `Except`;
* a call the source can never complete - the inline vacuum's
  self-deadlock on the file mutex, and a slice-bounds panic of the uint32
  size arithmetic - returns a sentinel error (`deadlock`,
  `sliceOutOfRange`) with the state as of the hang or abort point, so a
  model run in which every operation returns a nil error corresponds
  exactly to a completed execution of the program.
-/

namespace Bugfruit

/-- Little-endian encoding of a 32-bit word, as in binary.LittleEndian.PutUint32. -/
def putUint32 (n : Nat) : List Nat :=
  [n % 256, n / 256 % 256, n / 65536 % 256, n / 16777216 % 256]

/-- Little-endian decoding of four bytes, as in binary.LittleEndian.Uint32. -/
def getUint32 (b0 b1 b2 b3 : Nat) : Nat :=
  b0 + 256 * b1 + 65536 * b2 + 16777216 * b3

/-- Errors of the storage engine.  Wrapping constructors mirror the
fmt.Errorf wrappings in the source; message text is produced by errMessage.
Two constructors are sentinels for calls the source can never complete:
deadlock for the inline vacuum's self-deadlock and sliceOutOfRange for a
Go slice-bounds panic.  A run of the model returns them exactly where the
program hangs or aborts, so a model run in which every operation returns
a nil error corresponds exactly to a completed execution of the program. -/
inductive Err where
  | invalidMetaSlice
  | invalidKeyValSlice
  | noMetadata
  /-- readDatum read fewer key and value bytes than the header advertises. -/
  | shortKeyVal (n need : Nat)
  | convertingMetadata (e : Err)
  | convertingKeyVal (e : Err)
  | readingDatum (e : Err)
  | reclaimingSpace (e : Err)
  | vacuuming (e : Err)
  /-- an injected I O failure of a file write, used for the failed-append analysis -/
  | writeFailed
  /-- sentinel: incAndSync's inline vacuum re-locks the file mutex its
  caller (writeDatumToFile or writeDeletedByte) already holds; sync.Mutex
  is not reentrant, so the goroutine self-deadlocks and the triggering
  write never returns. -/
  | deadlock
  /-- sentinel: a Go slice-bounds panic (datum.Bytes and KeyValFromBytes
  when the uint32 size arithmetic wraps); the program aborts rather than
  returning. -/
  | sliceOutOfRange
  /-- sentinel for fuel exhaustion of the executable scan; unreachable for
  the fuel chosen by readAll (see readAll_eq) -/
  | outOfFuel
deriving Repr, DecidableEq

/-- Error message texts, following the fmt.Errorf format strings of the source.
Sentinel errors declared in errors.go carry their text from there. -/
def errMessage : Err → String
  | .invalidMetaSlice => "invalid meta slice"
  | .invalidKeyValSlice => "invalid key-val slice"
  | .noMetadata => "no metadata"
  | .shortKeyVal n need =>
      "reading database file: reading key/val data: read " ++ Nat.repr n ++
        " bytes, need " ++ Nat.repr need
  | .convertingMetadata e => "reading database file: converting metadata: " ++ errMessage e
  | .convertingKeyVal e => "reading database file: converting key/val data: " ++ errMessage e
  | .readingDatum e => "reading datum: " ++ errMessage e
  | .reclaimingSpace e => "reclaiming datum space: " ++ errMessage e
  | .vacuuming e => "vacuuming: " ++ errMessage e
  | .writeFailed => "writing to db file: injected write failure"
  | .deadlock => "fatal error: all goroutines are asleep - deadlock!"
  | .sliceOutOfRange => "runtime error: slice bounds out of range"
  | .outOfFuel => "out of fuel"

/-- metaSize from meta.go: 9 bytes, two uint32 plus one byte. -/
def metaSize : Nat := 9

/-- meta from meta.go: keySize and valSize are uint32, deleted is a byte. -/
structure Meta where
  keySize : Nat
  valSize : Nat
  deleted : Nat
deriving Repr, DecidableEq

/-- meta.Bytes from meta.go. -/
def Meta.Bytes (m : Meta) : List Nat :=
  putUint32 m.keySize ++ putUint32 m.valSize ++ [m.deleted]

/-- meta.FromBytes from meta.go. -/
def Meta.FromBytes (b : List Nat) : Except Err Meta :=
  if b.length ≠ metaSize then .error .invalidMetaSlice
  else .ok { keySize := getUint32 (b.getD 0 0) (b.getD 1 0) (b.getD 2 0) (b.getD 3 0),
             valSize := getUint32 (b.getD 4 0) (b.getD 5 0) (b.getD 6 0) (b.getD 7 0),
             deleted := b.getD 8 0 }

/-- datum from datum.go.  idx is the byte offset of the record in the file,
a uint32 stamped when the record is written; it is not serialised. -/
structure Datum where
  meta : Meta
  key : List Nat
  value : List Nat
  idx : Nat
deriving Repr, DecidableEq

/-- newDatum from datum.go. -/
def newDatum : Datum := { meta := ⟨0, 0, 0⟩, key := [], value := [], idx := 0 }

/-- datum.Set from datum.go.  The Go sizes are uint32(len(...)), hence the
explicit wrap.  The Go version returns a nil error unconditionally. -/
def Datum.Set (d : Datum) (key value : List Nat) : Datum :=
  let d := if value ≠ d.value then
      { d with meta := { d.meta with valSize := value.length % 2 ^ 32 }, value := value }
    else d
  if key ≠ d.key then
    { d with meta := { d.meta with keySize := key.length % 2 ^ 32 }, key := key }
  else d

/-- datum.MarkDeleted from datum.go. -/
def Datum.MarkDeleted (d : Datum) : Datum :=
  { d with meta := { d.meta with deleted := 1 } }

/-- datum.Deleted from datum.go. -/
def Datum.Deleted (d : Datum) : Nat := d.meta.deleted

/-- The exact encoded length of a record, keySize + valSize + metaSize.
datum.Size of datum.go computes this sum in uint32, so the Go value is
this wrapped mod 2^32 (Datum.SizeU32); the two agree exactly on records
whose encoded length is below 2^32, and every theorem that evaluates a
record on file carries that bound (it is part of WfDatum). -/
def Datum.Size (d : Datum) : Nat := d.meta.keySize + d.meta.valSize + metaSize

/-- datum.Size from datum.go, as the uint32 arithmetic computes it:
wrapped mod 2^32. -/
def Datum.SizeU32 (d : Datum) : Nat :=
  (d.meta.keySize + d.meta.valSize + metaSize) % 2 ^ 32

/-- Semantics of Go copy into a zeroed slice of length n: at most n source
bytes are copied, the rest of the destination stays zero. -/
def padTrunc (n : Nat) (xs : List Nat) : List Nat :=
  xs.take n ++ List.replicate (n - xs.length) 0

/-- The encoding datum.Bytes produces when none of its slicings panic:
header, then key bytes, then value bytes, each copied into a zeroed
buffer of the advertised size.  The executed Go function, with its
wrapped buffer allocation and the panic region, is Datum.BytesChecked;
the two agree wherever the encoded length is below 2^32
(Datum.BytesChecked_of_fit). -/
def Datum.Bytes (d : Datum) : List Nat :=
  d.meta.Bytes ++ padTrunc d.meta.keySize d.key ++ padTrunc d.meta.valSize d.value

/-- datum.Bytes as Go executes it: the buffer is allocated with the
wrapped uint32 size make([]byte, d.Size()) and the three copies slice it
at the wrapped uint32 indices metaSize and metaSize + keySize, so a
record whose encoded length reaches 2^32 makes a slicing panic (the
program aborts; sentinel sliceOutOfRange).  When the bounds hold, each
copy fills its window, truncating or zero-padding the source. -/
def Datum.BytesChecked (d : Datum) : Except Err (List Nat) :=
  let size := d.SizeU32
  let hiKey := (metaSize + d.meta.keySize) % 2 ^ 32
  if metaSize ≤ size ∧ metaSize ≤ hiKey ∧ hiKey ≤ size then
    .ok (d.meta.Bytes ++ padTrunc (hiKey - metaSize) d.key ++ padTrunc (size - hiKey) d.value)
  else .error .sliceOutOfRange

/-- datum.KeyValFromBytes from datum.go.  The Go version mutates the
datum; here the updated datum is returned.  The length check compares
uint32(len(b)) with the wrapping uint32 sum keySize + valSize; the two
slicings b[:keySize] and b[keySize : keySize+valSize] then panic (the
program aborts; sentinel sliceOutOfRange) when keySize exceeds the
wrapped sum, which happens exactly when the exact sum reaches 2^32. -/
def Datum.KeyValFromBytes (d : Datum) (b : List Nat) : Except Err Datum :=
  let total := (d.meta.keySize + d.meta.valSize) % 2 ^ 32
  if b.length % 2 ^ 32 ≠ total then .error .invalidKeyValSlice
  else if d.meta.keySize ≤ total ∧ total ≤ b.length then
    .ok { d with key := b.take d.meta.keySize,
                 value := (b.drop d.meta.keySize).take (total - d.meta.keySize) }
  else .error .sliceOutOfRange

/-! The storage engine: map.go and storage.go -/

/-- Config from config.go; VacuumBatch and FsyncBatch are uint64. -/
structure Config where
  VacuumBatch : Nat
  FsyncBatch : Nat
deriving Repr, DecidableEq

/-- The default config NewStorage installs when it is given nil. -/
def defaultConfig : Config := { VacuumBatch := 50000, FsyncBatch := 25000 }

/-- The muMap association data: each binding is a key with its datum.  A Go
map holds at most one binding per key; muStore keeps one binding per key. -/
abbrev MuMap := List (List Nat × Datum)

/-- muMap.Store from map.go. -/
def muStore (m : MuMap) (k : List Nat) (d : Datum) : MuMap :=
  (k, d) :: m.filter (fun p => p.1 ≠ k)

/-- muMap.Load from map.go. -/
def muLoad (m : MuMap) (k : List Nat) : Option Datum :=
  (m.find? (fun p => p.1 = k)).map (fun p => p.2)

/-- muMap.LoadAndDelete from map.go: the datum that was bound, if any, and
the map without the key. -/
def muLoadAndDelete (m : MuMap) (k : List Nat) : Option Datum × MuMap :=
  (muLoad m k, m.filter (fun p => p.1 ≠ k))

/-- Storage from storage.go.  The file handle is replaced by the file byte
content; the mutexes and the closed channel have no pure content. -/
structure Storage where
  file : List Nat
  data : MuMap
  idx : Nat
  writeCountSync : Nat
  writeCountVacuum : Nat
  config : Config
deriving Repr, DecidableEq

/-- Result of Storage.readDatum: EOF, an error, a consumed tombstoned record
(the Go nil datum with nil error), or a live record.  The remaining file
bytes and the updated cursor s.idx are returned alongside. -/
inductive ReadResult where
  | eof
  | fail (e : Err)
  | skip (rest : List Nat) (idx : Nat)
  | datum (d : Datum) (rest : List Nat) (idx : Nat)
deriving Repr, DecidableEq

/-- Storage.readDatum from storage.go, reading one record at the front of
the remaining file bytes with the scan cursor at idx.  A file read returns
the available bytes with no error, leaving the tail of the 9-byte buffer
zeroed when fewer than 9 bytes remain, exactly as os.File.Read does.
totalSize := m.keySize + m.valSize is the wrapping uint32 sum of
storage.go, so the buffer allocation, the skip distance, the short-read
check and its message all use the wrapped value.  A panic inside
KeyValFromBytes surfaces as the sliceOutOfRange sentinel unwrapped,
because a Go panic unwinds instead of returning err2.  The live-branch
cursor advance is written (idx + d.Size) % 2^32; Go adds the wrapped
d.Size(), and (a + b) % m = (a + b % m) % m makes the two equal. -/
def readDatum (bytes : List Nat) (idx : Nat) : ReadResult :=
  if bytes.isEmpty then .eof
  else
    match Meta.FromBytes (padTrunc metaSize bytes) with
    | .error e => .fail (.convertingMetadata e)
    | .ok m =>
      let totalSize := (m.keySize + m.valSize) % 2 ^ 32
      let rest := bytes.drop metaSize
      if m.deleted = 1 then
        .skip (rest.drop totalSize) ((idx + totalSize + metaSize) % 2 ^ 32)
      else
        let n := min totalSize rest.length
        if n ≠ totalSize then .fail (.shortKeyVal n totalSize)
        else
          match Datum.KeyValFromBytes { meta := m, key := [], value := [], idx := idx }
              (rest.take totalSize) with
          | .error .sliceOutOfRange => .fail .sliceOutOfRange
          | .error e => .fail (.convertingKeyVal e)
          | .ok d => .datum d (rest.drop totalSize) ((idx + d.Size) % 2 ^ 32)

/-- The scan loop shared by NewStorage and vacuum, with explicit fuel so
that it is structurally recursive; readAll supplies enough fuel.  Collects
the live records in file order and the final cursor. -/
def readAllFuel : Nat → List Nat → Nat → Except Err (List Datum × Nat)
  | 0, _, _ => .error .outOfFuel
  | fuel + 1, bytes, idx =>
    match readDatum bytes idx with
    | .eof => .ok ([], idx)
    | .fail e => .error e
    | .skip rest idx2 => readAllFuel fuel rest idx2
    | .datum d rest idx2 =>
      (readAllFuel fuel rest idx2).map (fun p => (d :: p.1, p.2))

/-- The scan loop with the fuel it can never exhaust (each record consumes
at least one byte). -/
def readAll (bytes : List Nat) (idx : Nat) : Except Err (List Datum × Nat) :=
  readAllFuel (bytes.length + 1) bytes idx

/-- NewStorage from storage.go, on the content of the opened file.  A nil
config becomes the default config.  On a scan error the file is closed
(a no-op here) and the wrapped error is surfaced. -/
def NewStorage (fileBytes : List Nat) (config : Option Config) : Except Err Storage :=
  let cfg := config.getD defaultConfig
  match readAll fileBytes 0 with
  | .error e => .error (.readingDatum e)
  | .ok (ds, idx) =>
      .ok { file := fileBytes,
            data := ds.foldl (fun m d => muStore m d.key d) [],
            idx := idx,
            writeCountSync := 0,
            writeCountVacuum := 0,
            config := cfg }

/-- Storage.Get from storage.go. -/
def Storage.Get (s : Storage) (key : List Nat) : List Nat × Bool :=
  match muLoad s.data key with
  | some d => (d.value, true)
  | none => ([], false)

/-- Storage.vacuum from storage.go: scan the file with the current cursor,
write the live records to a temp file, copy it back, truncate, and point
the cursor at the end.  The index is not touched.  On a scan error the
file content is unchanged and the error is surfaced. -/
def Storage.vacuum (s : Storage) : Storage × Option Err :=
  match readAll s.file s.idx with
  | .error e => (s, some (.readingDatum e))
  | .ok (ds, _) =>
      let cleaned := (ds.map Datum.Bytes).flatten
      ({ s with file := cleaned, idx := cleaned.length % 2 ^ 32 }, none)

/-- Storage.incAndSync from storage.go: increment both uint64 write
counters; sync (a no-op on the modelled state) and reset the sync counter
when the fsync batch is positive and reached.  When the vacuum batch is
positive and reached, the source calls s.vacuum(), whose first statement
is s.muFile.Lock() - but incAndSync only runs as the final statement of
writeDatumToFile or writeDeletedByte, both of which still hold muFile
(their deferred Unlock runs only after incAndSync returns), and
sync.Mutex is not reentrant: the goroutine self-deadlocks, the vacuum
never runs, the counter is never reset, and the triggering write never
returns.  The model returns the deadlock sentinel with the counters as
incremented; nothing after the hang point executes. -/
def incAndSync (s : Storage) : Storage × Option Err :=
  let wcs := (s.writeCountSync + 1) % 2 ^ 64
  let wcv := (s.writeCountVacuum + 1) % 2 ^ 64
  let s1 := { s with writeCountSync := wcs, writeCountVacuum := wcv }
  if 0 < s1.config.VacuumBatch ∧ s1.config.VacuumBatch ≤ wcv then
    (s1, some .deadlock)
  else
    if 0 < s1.config.FsyncBatch ∧ s1.config.FsyncBatch ≤ wcs then
      ({ s1 with writeCountSync := 0 }, none)
    else (s1, none)

/-- Storage.writeDatumToFile from storage.go: seek to the end, stamp the
datum offset with the uint32 file position, append the encoded record,
then incAndSync.  The stamped datum is returned because the Go caller
observes the stamp through the shared pointer.  d.Bytes() is computed
before the write, so a record whose slicing panics (encoded length at or
beyond 2^32) aborts after the stamp and before any file mutation; the
write-size check n != int(d.Size()) always passes when the encoding
succeeded, because both are the wrapped length. -/
def writeDatumToFile (s : Storage) (d : Datum) : Storage × Datum × Option Err :=
  let d1 := { d with idx := s.file.length % 2 ^ 32 }
  match d1.BytesChecked with
  | .error e => (s, d1, some e)
  | .ok b =>
    let s1 := { s with file := s.file ++ b }
    let (s2, e) := incAndSync s1
    (s2, d1, e)

/-- Storage.appendDatum from storage.go: build the datum, install it in the
index, and persist it.  The Go code stores the datum before the write and
the write stamps the offset through the shared pointer, so the index holds
the stamped datum whether or not incAndSync fails. -/
def appendDatum (s : Storage) (key value : List Nat) : Storage × Option Err :=
  let d := newDatum.Set key value
  let (s1, d1, e) := writeDatumToFile s d
  ({ s1 with data := muStore s1.data key d1 }, e)

/-- Storage.writeDeletedByte from storage.go: write the datum's deleted
byte at file offset d.idx + metaSize - 1, then incAndSync.  The model
covers the in-bounds write; a Go seek past the end would extend the file. -/
def writeDeletedByte (s : Storage) (d : Datum) : Storage × Option Err :=
  let delIdx := d.idx + metaSize - 1
  let s1 := { s with file := s.file.set delIdx d.Deleted }
  incAndSync s1

/-- Storage.reclaimSpace from storage.go: mark the datum deleted and write
the deleted byte.  The marked datum is returned because MarkDeleted
mutates the shared datum in Go. -/
def reclaimSpace (s : Storage) (d : Datum) : Storage × Datum × Option Err :=
  let d1 := d.MarkDeleted
  let (s1, e) := writeDeletedByte s d1
  (s1, d1, (e.map .reclaimingSpace))

/-- Storage.Set from storage.go: if the key is bound, reclaim the old
record's space first (the mark is visible in the index through the shared
pointer), then append the new record.  A reclaim error returns before the
append. -/
def Storage.Set (s : Storage) (key value : List Nat) : Storage × Option Err :=
  match muLoad s.data key with
  | some d =>
      let d1 := d.MarkDeleted
      let s0 := { s with data := muStore s.data key d1 }
      let (s1, e) := writeDeletedByte s0 d1
      match e with
      | some err => (s1, some (.reclaimingSpace err))
      | none => appendDatum s1 key value
  | none => appendDatum s key value

/-- Storage.Delete from storage.go: atomically remove the binding; if one
existed, reclaim its record's space; a missing key is a success with no
write at all. -/
def Storage.Delete (s : Storage) (key : List Nat) : Storage × Option Err :=
  match muLoadAndDelete s.data key with
  | (some d, data1) =>
      let s0 := { s with data := data1 }
      let (s1, _, e) := reclaimSpace s0 d
      (s1, e)
  | (none, _) => (s, none)

/-- The body of Storage.Snapshot's write loop: walk the index entries, and
for each entry whose deleted byte is not 1, stamp its offset with the
snapshot file position (through the shared pointer, so the source index
entry changes too) and append its record to the snapshot file.  Returns
the snapshot file bytes and the index entries as the loop leaves them. -/
def snapshotWrites : MuMap → Nat → List Nat × MuMap
  | [], _ => ([], [])
  | (k, d) :: rest, off =>
    if d.Deleted ≠ 1 then
      let d1 := { d with idx := off % 2 ^ 32 }
      let b := d1.Bytes
      let (tb, te) := snapshotWrites rest (off + b.length)
      (b ++ tb, (k, d1) :: te)
    else
      let (tb, te) := snapshotWrites rest off
      (tb, (k, d) :: te)

/-- Storage.Snapshot from storage.go, under the index read lock: the target
file is created empty, each live index entry's record is written to it via
writeDatumToFile (whose offset stamp mutates the shared source datum), and
the snapshot storage is closed.  The snapshot's own config disables vacuum
and fsync, so its incAndSync calls only bump its private counters.  The
result is the snapshot file content and the source storage afterwards. -/
def Storage.Snapshot (s : Storage) : List Nat × Storage :=
  let (bytes, entries) := snapshotWrites s.data 0
  (bytes, { s with data := entries })

/-- Storage.Set in a run where the file write inside writeDatumToFile fails
(an injected I O error at storage.go's s.file.Write): the reclaim phase has
already tombstoned the old record, appendDatum has already installed the
stamped datum in the index, the file gains no bytes, and the error is
returned without reaching incAndSync. -/
def Storage.SetWriteFails (s : Storage) (key value : List Nat) : Storage × Option Err :=
  match muLoad s.data key with
  | some d =>
      let d1 := d.MarkDeleted
      let s0 := { s with data := muStore s.data key d1 }
      let (s1, e) := writeDeletedByte s0 d1
      match e with
      | some err => (s1, some (.reclaimingSpace err))
      | none =>
          let dNew := { newDatum.Set key value with idx := s1.file.length % 2 ^ 32 }
          ({ s1 with data := muStore s1.data key dNew }, some .writeFailed)
  | none =>
      let dNew := { newDatum.Set key value with idx := s.file.length % 2 ^ 32 }
      ({ s with data := muStore s.data key dNew }, some .writeFailed)

/-- A public mutating operation. -/
inductive Op where
  | set (key value : List Nat)
  | del (key : List Nat)
deriving Repr, DecidableEq

/-- Apply one public operation, keeping the mutated state alongside any
returned error, as the Go receiver does. -/
def applyOp (s : Storage) (op : Op) : Storage × Option Err :=
  match op with
  | .set k v => s.Set k v
  | .del k => s.Delete k

/-- Replay a sequence of public operations, keeping the mutated receiver
even for operations that return an error, as a Go caller that ignores
errors would. -/
def runOps (s : Storage) (ops : List Op) : Storage :=
  ops.foldl (fun s op => (applyOp s op).1) s

/-- Every operation of the sequence returns a nil error when replayed. -/
def allOk (s : Storage) : List Op → Bool
  | [] => true
  | op :: rest =>
    let (s1, e) := applyOp s op
    e.isNone && allOk s1 rest

/-- The last operation of the sequence that touches the key, if any:
some (set k v) when the last operation on k was Set k v with no later
Delete k, some (del k) when it was Delete k, none when no operation
touched k. -/
def lastOpOn (ops : List Op) (k : List Nat) : Option Op :=
  ops.foldl
    (fun acc op =>
      match op with
      | .set k2 _ => if k2 = k then some op else acc
      | .del k2 => if k2 = k then some op else acc)
    none

/-! Concrete stores used by witnesses and counterexamples.  Keys: 97 is a,
98 is b. -/

/-- An empty store with vacuum and fsync disabled. -/
def init0 : Storage :=
  { file := [], data := [], idx := 0, writeCountSync := 0, writeCountVacuum := 0,
    config := { VacuumBatch := 0, FsyncBatch := 0 } }

/-- Store holding a and b with a deleted, built with vacuum disabled. -/
def storeAB : Storage :=
  runOps init0 [.set [97] [1, 2, 3], .set [98] [4, 5, 6], .del [97]]

/-- Storage.Close from storage.go: sync and close the handle.  Neither
changes the file content or the index, so on the modelled state Close is
the identity with a nil error. -/
def Storage.Close (s : Storage) : Storage × Option Err := (s, none)

/-! Abstractions used to state and prove the claims -/

/-- A record is well formed when its sizes describe its key and value and
fit in 32 bits, its deleted byte is the flag the code writes, and its
encoded length stays below 2^32, so that none of the source's wrapping
uint32 size computations actually wraps on it. -/
def WfDatum (d : Datum) : Prop :=
  d.key.length = d.meta.keySize ∧ d.value.length = d.meta.valSize ∧
  d.meta.keySize < 2 ^ 32 ∧ d.meta.valSize < 2 ^ 32 ∧
  d.Size < 2 ^ 32 ∧
  (d.meta.deleted = 0 ∨ d.meta.deleted = 1)

instance (d : Datum) : Decidable (WfDatum d) := by
  unfold WfDatum; infer_instance

/-- The byte content of a file holding the given records in order. -/
def serializeRecs (recs : List Datum) : List Nat :=
  (recs.map Datum.Bytes).flatten

/-- Total on-disk size of a list of records. -/
def sizeSum (recs : List Datum) : Nat :=
  (recs.map Datum.Size).sum

/-- Each record's idx field is its byte offset in a file that starts at
offset base and holds the records consecutively. -/
def offsetsFromB : List Datum → Nat → Bool
  | [], _ => true
  | d :: rest, base => d.idx == base && offsetsFromB rest (base + d.Size)

/-- What the scan loop returns on a file holding the given records, with
the cursor starting at base: the records whose deleted byte is not 1, in
order, each stamped with the cursor value at its start. -/
def scanOut : List Datum → Nat → List Datum
  | [], _ => []
  | d :: rest, base =>
    if d.meta.deleted = 1 then scanOut rest ((base + d.Size) % 2 ^ 32)
    else { d with idx := base } :: scanOut rest ((base + d.Size) % 2 ^ 32)

/-- The scan cursor after consuming the given records from base. -/
def cumIdx (recs : List Datum) (base : Nat) : Nat :=
  recs.foldl (fun i d => (i + d.Size) % 2 ^ 32) base

/-- The invariant tying a store reached through Set and Delete operations
to the record list its file holds: the file serialises the records, the
records sit at their stamped offsets, they are well formed, the file fits
in 32 bits, the index holds exactly the live records keyed by their keys,
and the index has one binding per key. -/
def StoreInv (s : Storage) (recs : List Datum) : Prop :=
  s.file = serializeRecs recs ∧
  offsetsFromB recs 0 = true ∧
  (∀ d ∈ recs, WfDatum d) ∧
  sizeSum recs < 2 ^ 32 ∧
  (∀ d ∈ recs, d.meta.deleted = 0 → muLoad s.data d.key = some d) ∧
  (∀ p ∈ s.data, p.2 ∈ recs ∧ p.2.meta.deleted = 0 ∧ p.2.key = p.1) ∧
  List.Pairwise (fun p q => p.1 ≠ q.1) s.data

/-- No two non-tombstoned records of the list carry the same key. -/
def OneLivePerKey (recs : List Datum) : Prop :=
  List.Pairwise (fun a b => a.meta.deleted = 0 → b.meta.deleted = 0 → a.key ≠ b.key) recs

/-- The observable content of an index entry: its key and its value. -/
def keyVal (d : Datum) : List Nat × List Nat := (d.key, d.value)

/-- The record list after the record at offset t has been tombstoned. -/
def markAt (recs : List Datum) (t : Nat) : List Datum :=
  recs.map (fun x => if x.idx = t then { x with meta := { x.meta with deleted := 1 } } else x)

/-- Total size of the records the Set operations of a sequence append. -/
def setBytes : List Op → Nat
  | [] => 0
  | .set k v :: rest => metaSize + k.length + v.length + setBytes rest
  | .del _ :: rest => setBytes rest

/-! Basic codec lemmas -/

theorem putUint32_length (n : Nat) : (putUint32 n).length = 4 := rfl

theorem getUint32_putUint32 (n : Nat) (h : n < 2 ^ 32) :
    getUint32 (n % 256) (n / 256 % 256) (n / 65536 % 256) (n / 16777216 % 256) = n := by
  simp only [getUint32]
  omega

theorem Meta.length_Bytes (m : Meta) : m.Bytes.length = metaSize := by
  simp [Meta.Bytes, putUint32, metaSize]

theorem Meta.FromBytes_Bytes (m : Meta) (hk : m.keySize < 2 ^ 32) (hv : m.valSize < 2 ^ 32) :
    Meta.FromBytes m.Bytes = .ok m := by
  have h9 : (Meta.Bytes m).length = metaSize := Meta.length_Bytes m
  simp only [Meta.FromBytes, h9, ne_eq, not_true_eq_false, if_false]
  have hb : Meta.Bytes m = [m.keySize % 256, m.keySize / 256 % 256, m.keySize / 65536 % 256,
      m.keySize / 16777216 % 256, m.valSize % 256, m.valSize / 256 % 256,
      m.valSize / 65536 % 256, m.valSize / 16777216 % 256, m.deleted] := by
    simp [Meta.Bytes, putUint32]
  rw [hb]
  simp only [List.getD, List.get?, Option.getD]
  rw [getUint32_putUint32 m.keySize hk, getUint32_putUint32 m.valSize hv]

theorem padTrunc_length (n : Nat) (xs : List Nat) : (padTrunc n xs).length = n := by
  simp only [padTrunc, List.length_append, List.length_take, List.length_replicate]
  omega

theorem padTrunc_of_length (xs : List Nat) : padTrunc xs.length xs = xs := by
  simp [padTrunc]

theorem Datum.Bytes_length (d : Datum) : d.Bytes.length = d.Size := by
  simp only [Datum.Bytes, Datum.Size, List.length_append, Meta.length_Bytes,
    padTrunc_length]
  omega

theorem padTrunc_of_le (n : Nat) (xs : List Nat) (h : n ≤ xs.length) :
    padTrunc n xs = xs.take n := by
  simp [padTrunc, Nat.sub_eq_zero_of_le h]

theorem metaSize_pos : 0 < metaSize := by decide

theorem Datum.Size_ge (d : Datum) : metaSize ≤ d.Size := by
  simp only [Datum.Size]; omega

/-! Scan lemmas -/

theorem readDatum_nil (idx : Nat) : readDatum [] idx = .eof := rfl

theorem readDatum_skip_lt {bytes : List Nat} {idx rest2 : Nat} {rest : List Nat}
    (h : readDatum bytes idx = .skip rest rest2) : rest.length < bytes.length := by
  by_cases hb : bytes.isEmpty
  · simp [readDatum, hb] at h
  · have hlen : 0 < bytes.length := by
      cases bytes with
      | nil => simp at hb
      | cons a l => simp
    rw [readDatum] at h
    simp only [hb, Bool.false_eq_true, if_false] at h
    split at h
    · exact absurd h (by simp)
    · split at h
      · injection h with h1 h2
        subst h1
        rw [List.length_drop, List.length_drop]
        simp only [metaSize] at *
        omega
      · split at h
        · exact absurd h (by simp)
        · split at h <;> exact absurd h (by simp)

theorem readDatum_datum_lt {bytes : List Nat} {idx rest2 : Nat} {d : Datum} {rest : List Nat}
    (h : readDatum bytes idx = .datum d rest rest2) : rest.length < bytes.length := by
  by_cases hb : bytes.isEmpty
  · simp [readDatum, hb] at h
  · have hlen : 0 < bytes.length := by
      cases bytes with
      | nil => simp at hb
      | cons a l => simp
    rw [readDatum] at h
    simp only [hb, Bool.false_eq_true, if_false] at h
    split at h
    · exact absurd h (by simp)
    · split at h
      · exact absurd h (by simp)
      · split at h
        · exact absurd h (by simp)
        · split at h
          · exact absurd h (by simp)
          · exact absurd h (by simp)
          · injection h with h1 h2 h3
            subst h2
            rw [List.length_drop, List.length_drop]
            simp only [metaSize] at *
            omega

theorem readAllFuel_congr : ∀ (f1 f2 : Nat) (bytes : List Nat) (idx : Nat),
    bytes.length < f1 → bytes.length < f2 →
    readAllFuel f1 bytes idx = readAllFuel f2 bytes idx := by
  intro f1
  induction f1 with
  | zero => intro f2 bytes idx h1 _; omega
  | succ f ih =>
    intro f2 bytes idx h1 h2
    cases f2 with
    | zero => omega
    | succ g =>
      rw [readAllFuel, readAllFuel]
      cases h : readDatum bytes idx with
      | eof => rfl
      | fail e => rfl
      | skip rest idx2 =>
        have := readDatum_skip_lt h
        simp only
        exact ih g rest idx2 (by omega) (by omega)
      | datum d rest idx2 =>
        have := readDatum_datum_lt h
        simp only
        rw [ih g rest idx2 (by omega) (by omega)]

/-- The defining equation of the scan loop, with the fuel eliminated. -/
theorem readAll_eq (bytes : List Nat) (idx : Nat) :
    readAll bytes idx =
      match readDatum bytes idx with
      | .eof => .ok ([], idx)
      | .fail e => .error e
      | .skip rest idx2 => readAll rest idx2
      | .datum d rest idx2 => (readAll rest idx2).map (fun p => (d :: p.1, p.2)) := by
  rw [readAll, readAllFuel]
  cases h : readDatum bytes idx with
  | eof => rfl
  | fail e => rfl
  | skip rest idx2 =>
    have := readDatum_skip_lt h
    simp only
    exact readAllFuel_congr _ _ _ _ (by omega) (by omega)
  | datum d rest idx2 =>
    have := readDatum_datum_lt h
    simp only
    rw [readAllFuel_congr bytes.length (rest.length + 1) rest idx2 (by omega) (by omega)]
    rfl

/-- Reading at the front of a well-formed record consumes exactly that
record: a tombstoned record is skipped, a live one is returned stamped
with the cursor, and the cursor advances by the record size. -/
theorem readDatum_bytes (d : Datum) (tail : List Nat) (idx : Nat) (hwf : WfDatum d) :
    readDatum (d.Bytes ++ tail) idx =
      if d.meta.deleted = 1 then .skip tail ((idx + d.Size) % 2 ^ 32)
      else .datum { d with idx := idx } tail ((idx + d.Size) % 2 ^ 32) := by
  obtain ⟨hk, hv, hk32, hv32, hsz, _⟩ := hwf
  have htot : (d.meta.keySize + d.meta.valSize) % 2 ^ 32 =
      d.meta.keySize + d.meta.valSize := by
    apply Nat.mod_eq_of_lt
    simp only [Datum.Size, metaSize] at hsz
    omega
  have hpad1 : padTrunc d.meta.keySize d.key = d.key := by
    rw [← hk, padTrunc_of_length]
  have hpad2 : padTrunc d.meta.valSize d.value = d.value := by
    rw [← hv, padTrunc_of_length]
  have hbytes : d.Bytes ++ tail = d.meta.Bytes ++ ((d.key ++ d.value) ++ tail) := by
    simp [Datum.Bytes, hpad1, hpad2]
  have hlen : (d.Bytes ++ tail).length = d.Size + tail.length := by
    simp [Datum.Bytes_length]
  have hSize : d.Size = d.meta.keySize + d.meta.valSize + 9 := rfl
  have hne : (d.Bytes ++ tail).isEmpty = false := by
    cases hc : d.Bytes ++ tail with
    | nil => rw [hc] at hlen; simp at hlen; omega
    | cons a l => rfl
  have h9 : padTrunc metaSize (d.Bytes ++ tail) = d.meta.Bytes := by
    have hge := Datum.Size_ge d
    rw [padTrunc_of_le _ _ (by rw [hlen]; omega), hbytes,
      show metaSize = (d.meta.Bytes).length from (Meta.length_Bytes d.meta).symm,
      List.take_left]
  have hfb : Meta.FromBytes (padTrunc metaSize (d.Bytes ++ tail)) = .ok d.meta := by
    rw [h9]; exact Meta.FromBytes_Bytes _ hk32 hv32
  have hdrop : (d.Bytes ++ tail).drop metaSize = (d.key ++ d.value) ++ tail := by
    rw [hbytes, show metaSize = (d.meta.Bytes).length from (Meta.length_Bytes d.meta).symm,
      List.drop_left]
  have hkvlen : (d.key ++ d.value).length = d.meta.keySize + d.meta.valSize := by
    simp [hk, hv]
  rw [readDatum]
  simp only [hne, Bool.false_eq_true, if_false, hfb, hdrop, htot]
  by_cases hdel : d.meta.deleted = 1
  · simp only [hdel, if_true, if_pos rfl]
    have hdroptot : ((d.key ++ d.value) ++ tail).drop (d.meta.keySize + d.meta.valSize) =
        tail := by
      rw [← hkvlen, List.drop_left]
    rw [hdroptot]
    have : idx + (d.meta.keySize + d.meta.valSize) + metaSize = idx + d.Size := by
      rw [hSize]; simp only [metaSize]; omega
    rw [this]
  · simp only [hdel, if_false]
    have hminlen : ((d.key ++ d.value) ++ tail).length =
        d.meta.keySize + d.meta.valSize + tail.length := by
      simp only [List.length_append]
      omega
    have hmin : min (d.meta.keySize + d.meta.valSize) ((d.key ++ d.value) ++ tail).length =
        d.meta.keySize + d.meta.valSize := by
      rw [hminlen]; omega
    rw [hmin]
    simp only [ne_eq, not_true_eq_false, if_false]
    have htake : ((d.key ++ d.value) ++ tail).take (d.meta.keySize + d.meta.valSize) =
        d.key ++ d.value := by
      rw [← hkvlen, List.take_left]
    rw [htake]
    have hkv : Datum.KeyValFromBytes { meta := d.meta, key := [], value := [], idx := idx }
        (d.key ++ d.value) = .ok { meta := d.meta, key := d.key, value := d.value, idx := idx } := by
      rw [Datum.KeyValFromBytes]
      simp only [hkvlen, htot, ne_eq, not_true_eq_false, if_false]
      rw [if_pos ⟨Nat.le_add_right _ _, Nat.le_refl _⟩]
      have t1 : (d.key ++ d.value).take d.meta.keySize = d.key := by
        rw [← hk, List.take_left]
      have t2 : ((d.key ++ d.value).drop d.meta.keySize).take
          (d.meta.keySize + d.meta.valSize - d.meta.keySize) = d.value := by
        rw [Nat.add_sub_cancel_left, ← hk, List.drop_left, ← hv, List.take_length]
      rw [t1, t2]
    rw [hkv]
    have hdroptot : ((d.key ++ d.value) ++ tail).drop (d.meta.keySize + d.meta.valSize) =
        tail := by
      rw [← hkvlen, List.drop_left]
    rw [hdroptot]
    rfl

/-! Serialized files and what the scan does on them -/

theorem serializeRecs_nil : serializeRecs [] = [] := rfl

theorem serializeRecs_cons (d : Datum) (recs : List Datum) :
    serializeRecs (d :: recs) = d.Bytes ++ serializeRecs recs := by
  simp [serializeRecs]

theorem serializeRecs_append (l1 l2 : List Datum) :
    serializeRecs (l1 ++ l2) = serializeRecs l1 ++ serializeRecs l2 := by
  simp [serializeRecs]

theorem serializeRecs_length (recs : List Datum) :
    (serializeRecs recs).length = sizeSum recs := by
  induction recs with
  | nil => rfl
  | cons d rest ih =>
    rw [serializeRecs_cons, List.length_append, ih]
    simp [sizeSum, Datum.Bytes_length]

theorem cumIdx_cons (d : Datum) (rest : List Datum) (base : Nat) :
    cumIdx (d :: rest) base = cumIdx rest ((base + d.Size) % 2 ^ 32) := rfl

theorem scanOut_cons (d : Datum) (rest : List Datum) (base : Nat) :
    scanOut (d :: rest) base =
      if d.meta.deleted = 1 then scanOut rest ((base + d.Size) % 2 ^ 32)
      else { d with idx := base } :: scanOut rest ((base + d.Size) % 2 ^ 32) := rfl

/-- Scanning a serialized record list followed by any suffix consumes
exactly the records (collecting the live ones, stamped with the cursor)
and continues into the suffix with the advanced cursor. -/
theorem readAll_append (recs : List Datum) (suffix : List Nat) (idx : Nat)
    (hwf : ∀ d ∈ recs, WfDatum d) :
    readAll (serializeRecs recs ++ suffix) idx =
      (readAll suffix (cumIdx recs idx)).map (fun p => (scanOut recs idx ++ p.1, p.2)) := by
  induction recs generalizing suffix idx with
  | nil =>
    simp only [serializeRecs_nil, List.nil_append, cumIdx, List.foldl_nil, scanOut]
    cases h : readAll suffix idx with
    | ok p => simp [Except.map]
    | error e => simp [Except.map]
  | cons d rest ih =>
    have hwfd : WfDatum d := hwf d (by simp)
    have hwfr : ∀ x ∈ rest, WfDatum x := fun x hx => hwf x (by simp [hx])
    rw [serializeRecs_cons, List.append_assoc, readAll_eq,
      readDatum_bytes d _ idx hwfd, cumIdx_cons, scanOut_cons]
    by_cases hdel : d.meta.deleted = 1
    · simp only [hdel, if_true]
      exact ih _ _ hwfr
    · simp only [hdel, if_false]
      rw [ih _ _ hwfr]
      cases h : readAll suffix (cumIdx rest ((idx + d.Size) % 2 ^ 32)) with
      | ok p => simp [Except.map]
      | error e => simp [Except.map]

/-- On a serialized record list alone the scan succeeds and returns the
live records stamped with the running cursor. -/
theorem readAll_serialize (recs : List Datum) (idx : Nat)
    (hwf : ∀ d ∈ recs, WfDatum d) :
    readAll (serializeRecs recs) idx = .ok (scanOut recs idx, cumIdx recs idx) := by
  have h := readAll_append recs [] idx hwf
  rw [List.append_nil] at h
  rw [h]
  simp [readAll, readAllFuel, readDatum_nil, Except.map]

/-- Stamps do not change the bytes a record writes. -/
theorem Datum.Bytes_idx (d : Datum) (i : Nat) :
    Datum.Bytes { d with idx := i } = d.Bytes := rfl

/-- The bytes the scan output writes back are the bytes of the live
records, whatever the cursor was. -/
theorem scanOut_bytes (recs : List Datum) (base : Nat) :
    (scanOut recs base).map Datum.Bytes =
      (recs.filter (fun d => d.Deleted != 1)).map Datum.Bytes := by
  induction recs generalizing base with
  | nil => rfl
  | cons d rest ih =>
    rw [scanOut_cons]
    by_cases hdel : d.meta.deleted = 1
    · simp only [hdel, if_true, List.filter_cons]
      have : (d.Deleted != 1) = false := by simp [Datum.Deleted, hdel]
      rw [this]
      simp only [Bool.false_eq_true, if_false]
      exact ih _
    · simp only [hdel, if_false, List.filter_cons]
      have : (d.Deleted != 1) = true := by simp [Datum.Deleted, hdel]
      rw [this]
      simp only [if_true, List.map_cons]
      rw [ih _, Datum.Bytes_idx]

/-- With an in-bounds cursor and a file that fits, the scan output of a
correctly offset record list is exactly its list of live records. -/
theorem scanOut_eq_filter (recs : List Datum) (base : Nat)
    (hoffs : offsetsFromB recs base = true)
    (hfit : base + sizeSum recs < 2 ^ 32) :
    scanOut recs base = recs.filter (fun d => d.Deleted != 1) := by
  induction recs generalizing base with
  | nil => rfl
  | cons d rest ih =>
    rw [offsetsFromB] at hoffs
    have hidx : d.idx = base := by
      have h1 := ((Bool.and_eq_true ..).mp hoffs).1
      simpa using h1
    have hrest : offsetsFromB rest (base + d.Size) = true :=
      ((Bool.and_eq_true ..).mp hoffs).2
    have hsz : sizeSum (d :: rest) = d.Size + sizeSum rest := by
      simp [sizeSum]
    have hmod : (base + d.Size) % 2 ^ 32 = base + d.Size := by
      apply Nat.mod_eq_of_lt
      omega
    rw [scanOut_cons, hmod]
    by_cases hdel : d.meta.deleted = 1
    · simp only [hdel, if_true, List.filter_cons]
      have : (d.Deleted != 1) = false := by simp [Datum.Deleted, hdel]
      rw [this]
      simp only [Bool.false_eq_true, if_false]
      exact ih _ hrest (by omega)
    · simp only [hdel, if_false, List.filter_cons]
      have : (d.Deleted != 1) = true := by simp [Datum.Deleted, hdel]
      rw [this]
      simp only [if_true]
      rw [ih _ hrest (by omega)]
      have : ({ d with idx := base } : Datum) = d := by
        cases d with
        | mk m k v i => simp at hidx; simp [hidx]
      rw [this]

/-! Offsets, tombstone byte placement -/

theorem offsetsFromB_cons (d : Datum) (rest : List Datum) (base : Nat) :
    offsetsFromB (d :: rest) base = (d.idx == base && offsetsFromB rest (base + d.Size)) := rfl

theorem offsetsFromB_cons_elim {d : Datum} {rest : List Datum} {base : Nat}
    (h : offsetsFromB (d :: rest) base = true) :
    d.idx = base ∧ offsetsFromB rest (base + d.Size) = true := by
  rw [offsetsFromB_cons, Bool.and_eq_true] at h
  exact ⟨by simpa using h.1, h.2⟩

theorem offsetsFromB_mem_lb (recs : List Datum) (base : Nat)
    (h : offsetsFromB recs base = true) : ∀ d ∈ recs, base ≤ d.idx := by
  induction recs generalizing base with
  | nil => intro d hd; cases hd
  | cons x rest ih =>
    obtain ⟨hx, hrest⟩ := offsetsFromB_cons_elim h
    intro d hd
    rcases List.mem_cons.mp hd with h1 | h1
    · subst h1; omega
    · have hs : metaSize ≤ x.Size := Datum.Size_ge x
      have := ih (base + x.Size) hrest d h1
      simp only [metaSize] at hs
      omega

theorem offsetsFromB_mem_ub (recs : List Datum) (base : Nat)
    (h : offsetsFromB recs base = true) :
    ∀ d ∈ recs, d.idx + d.Size ≤ base + sizeSum recs := by
  induction recs generalizing base with
  | nil => intro d hd; cases hd
  | cons x rest ih =>
    obtain ⟨hx, hrest⟩ := offsetsFromB_cons_elim h
    intro d hd
    have hsz : sizeSum (x :: rest) = x.Size + sizeSum rest := by simp [sizeSum]
    rcases List.mem_cons.mp hd with h1 | h1
    · subst h1; omega
    · have := ih (base + x.Size) hrest d h1
      omega

theorem offsetsFromB_idx_inj (recs : List Datum) (base : Nat)
    (h : offsetsFromB recs base = true) :
    ∀ x ∈ recs, ∀ y ∈ recs, x.idx = y.idx → x = y := by
  induction recs generalizing base with
  | nil => intro x hx; cases hx
  | cons a rest ih =>
    obtain ⟨ha, hrest⟩ := offsetsFromB_cons_elim h
    have hgt : ∀ y ∈ rest, base < y.idx := by
      intro y hy
      have hs : metaSize ≤ a.Size := Datum.Size_ge a
      have := offsetsFromB_mem_lb rest (base + a.Size) hrest y hy
      simp only [metaSize] at hs
      omega
    intro x hx y hy hxy
    rcases List.mem_cons.mp hx with h1 | h1 <;> rcases List.mem_cons.mp hy with h2 | h2
    · rw [h1, h2]
    · subst h1; have := hgt y h2; omega
    · subst h2; have := hgt x h1; omega
    · exact ih (base + a.Size) hrest x h1 y h2 hxy

theorem offsetsFromB_append_one (recs : List Datum) (d : Datum) (base : Nat)
    (h : offsetsFromB recs base = true) (hd : d.idx = base + sizeSum recs) :
    offsetsFromB (recs ++ [d]) base = true := by
  induction recs generalizing base with
  | nil =>
    simp only [List.nil_append, offsetsFromB, Bool.and_eq_true]
    constructor
    · simp [hd, sizeSum]
    · trivial
  | cons x rest ih =>
    obtain ⟨hx, hrest⟩ := offsetsFromB_cons_elim h
    have hsz : sizeSum (x :: rest) = x.Size + sizeSum rest := by simp [sizeSum]
    simp only [List.cons_append, offsetsFromB, Bool.and_eq_true]
    refine ⟨by simp [hx], ih (base + x.Size) hrest (by omega)⟩

theorem markAt_id (recs : List Datum) (t : Nat) (h : ∀ y ∈ recs, y.idx ≠ t) :
    markAt recs t = recs := by
  induction recs with
  | nil => rfl
  | cons x rest ih =>
    simp only [markAt, List.map_cons]
    rw [if_neg (h x (by simp))]
    have := ih (fun y hy => h y (by simp [hy]))
    simp only [markAt] at this
    rw [this]

theorem markAt_cons (x : Datum) (rest : List Datum) (t : Nat) :
    markAt (x :: rest) t =
      (if x.idx = t then { x with meta := { x.meta with deleted := 1 } } else x) ::
        markAt rest t := rfl

theorem Meta.set8_Bytes (m : Meta) :
    m.Bytes.set 8 1 = (Meta.Bytes { m with deleted := 1 }) := by
  simp [Meta.Bytes, putUint32, List.set]

theorem Datum.Bytes_set8 (d : Datum) :
    d.Bytes.set 8 1 = Datum.Bytes { d with meta := { d.meta with deleted := 1 } } := by
  have h9 : (8 : Nat) < d.meta.Bytes.length := by rw [Meta.length_Bytes]; decide
  simp only [Datum.Bytes, List.append_assoc, List.set_append, h9, if_pos]
  rw [Meta.set8_Bytes]

/-- Setting the byte at a record's offset plus 8 in a serialized file
tombstones exactly that record. -/
theorem serializeRecs_set_mark (recs : List Datum) (base : Nat) (d : Datum)
    (hoffs : offsetsFromB recs base = true) (hd : d ∈ recs) :
    (serializeRecs recs).set (d.idx + metaSize - 1 - base) 1 =
      serializeRecs (markAt recs d.idx) := by
  induction recs generalizing base with
  | nil => cases hd
  | cons x rest ih =>
    obtain ⟨hx, hrest⟩ := offsetsFromB_cons_elim hoffs
    have hxlen : x.Bytes.length = x.Size := Datum.Bytes_length x
    have hxsz : metaSize ≤ x.Size := Datum.Size_ge x
    rcases List.mem_cons.mp hd with h1 | h1
    · subst h1
      have hpos : d.idx + metaSize - 1 - base = 8 := by
        simp only [metaSize] at *
        omega
      rw [serializeRecs_cons, hpos, List.set_append,
        if_pos (by simp only [metaSize] at *; omega)]
      rw [markAt_cons, if_pos rfl, serializeRecs_cons]
      have hrestid : markAt rest d.idx = rest := by
        apply markAt_id
        intro y hy
        have hs : metaSize ≤ d.Size := Datum.Size_ge d
        have := offsetsFromB_mem_lb rest (base + d.Size) hrest y hy
        simp only [metaSize] at *
        omega
      rw [hrestid, Datum.Bytes_set8]
    · have hdlb : base + x.Size ≤ d.idx := offsetsFromB_mem_lb rest (base + x.Size) hrest d h1
      have hpos : ¬ (d.idx + metaSize - 1 - base < x.Bytes.length) := by
        simp only [metaSize] at *
        omega
      rw [serializeRecs_cons, List.set_append, if_neg hpos]
      rw [markAt_cons, if_neg (by
        have hs : metaSize ≤ x.Size := Datum.Size_ge x
        simp only [metaSize] at *
        omega), serializeRecs_cons]
      have harith : d.idx + metaSize - 1 - base - x.Bytes.length =
          d.idx + metaSize - 1 - (base + x.Size) := by
        simp only [metaSize] at *
        omega
      rw [harith, ih (base + x.Size) hrest h1]

/-- The byte at a record's offset plus 8 in a serialized file is that
record's deleted byte. -/
theorem serializeRecs_getD_del (recs : List Datum) (base : Nat) (d : Datum)
    (hoffs : offsetsFromB recs base = true) (hd : d ∈ recs) :
    (serializeRecs recs).getD (d.idx + metaSize - 1 - base) 0 = d.meta.deleted := by
  induction recs generalizing base with
  | nil => cases hd
  | cons x rest ih =>
    obtain ⟨hx, hrest⟩ := offsetsFromB_cons_elim hoffs
    have hxlen : x.Bytes.length = x.Size := Datum.Bytes_length x
    have hxsz : metaSize ≤ x.Size := Datum.Size_ge x
    rcases List.mem_cons.mp hd with h1 | h1
    · subst h1
      have hpos : d.idx + metaSize - 1 - base = 8 := by
        simp only [metaSize] at *
        omega
      rw [serializeRecs_cons, hpos]
      have h8 : (8 : Nat) < d.meta.Bytes.length := by rw [Meta.length_Bytes]; decide
      have hgetapp : (d.Bytes ++ serializeRecs rest).getD 8 0 = d.Bytes.getD 8 0 := by
        rw [List.getD_eq_getElem?_getD, List.getD_eq_getElem?_getD,
          List.getElem?_append_left (by simp only [metaSize] at *; omega)]
      rw [hgetapp]
      simp only [Datum.Bytes, List.append_assoc]
      rw [List.getD_eq_getElem?_getD, List.getElem?_append_left h8,
        ← List.getD_eq_getElem?_getD]
      simp [Meta.Bytes, putUint32, List.getD]
    · have hdlb : base + x.Size ≤ d.idx := offsetsFromB_mem_lb rest (base + x.Size) hrest d h1
      rw [serializeRecs_cons, List.getD_eq_getElem?_getD,
        List.getElem?_append_right (by simp only [metaSize] at *; omega),
        ← List.getD_eq_getElem?_getD]
      have harith : d.idx + metaSize - 1 - base - x.Bytes.length =
          d.idx + metaSize - 1 - (base + x.Size) := by
        simp only [metaSize] at *
        omega
      rw [harith]
      exact ih (base + x.Size) hrest h1

/-! Index map lemmas -/

theorem muLoad_nil (k : List Nat) : muLoad [] k = none := rfl

theorem muLoad_cons (p : List Nat × Datum) (m : MuMap) (k : List Nat) :
    muLoad (p :: m) k = if p.1 = k then some p.2 else muLoad m k := by
  by_cases h : p.1 = k
  · simp [muLoad, List.find?_cons_of_pos, h]
  · simp [muLoad, List.find?_cons_of_neg, h]

theorem muLoad_filter_self (m : MuMap) (k : List Nat) :
    muLoad (m.filter (fun p => p.1 ≠ k)) k = none := by
  have h : (m.filter (fun p => decide (p.1 ≠ k))).find? (fun p => p.1 = k) = none := by
    rw [List.find?_eq_none]
    intro x hx
    have := (List.mem_filter.mp hx).2
    simp at this ⊢
    exact this
  simp [muLoad, h]

theorem muLoad_filter_other (m : MuMap) (k k2 : List Nat) (h : k2 ≠ k) :
    muLoad (m.filter (fun p => p.1 ≠ k)) k2 = muLoad m k2 := by
  induction m with
  | nil => rfl
  | cons p rest ih =>
    by_cases hp : p.1 = k
    · have hfil : List.filter (fun p => decide (p.1 ≠ k)) (p :: rest) =
          List.filter (fun p => decide (p.1 ≠ k)) rest := by
        simp [List.filter_cons, hp]
      rw [hfil, ih, muLoad_cons, if_neg (by rw [hp]; exact fun hh => h hh.symm)]
    · have hfil : List.filter (fun p => decide (p.1 ≠ k)) (p :: rest) =
          p :: List.filter (fun p => decide (p.1 ≠ k)) rest := by
        simp [List.filter_cons, hp]
      rw [hfil, muLoad_cons, muLoad_cons, ih]

theorem muLoad_muStore_self (m : MuMap) (k : List Nat) (d : Datum) :
    muLoad (muStore m k d) k = some d := by
  rw [muStore, muLoad_cons, if_pos rfl]

theorem muLoad_muStore_other (m : MuMap) (k : List Nat) (d : Datum) (k2 : List Nat)
    (h : k2 ≠ k) : muLoad (muStore m k d) k2 = muLoad m k2 := by
  rw [muStore, muLoad_cons, if_neg (fun hh => h hh.symm)]
  exact muLoad_filter_other m k k2 h

theorem muStore_muStore (m : MuMap) (k : List Nat) (a b : Datum) :
    muStore (muStore m k a) k b = muStore m k b := by
  simp only [muStore, List.filter_cons]
  simp [List.filter_filter]

theorem muStore_pairwise (m : MuMap) (k : List Nat) (d : Datum)
    (h : List.Pairwise (fun p q => p.1 ≠ q.1) m) :
    List.Pairwise (fun p q => p.1 ≠ q.1) (muStore m k d) := by
  rw [muStore, List.pairwise_cons]
  constructor
  · intro q hq
    have := (List.mem_filter.mp hq).2
    simp at this
    exact fun hh => this hh.symm
  · exact h.filter _

theorem filter_pairwise (m : MuMap) (k : List Nat)
    (h : List.Pairwise (fun p q => p.1 ≠ q.1) m) :
    List.Pairwise (fun p q => p.1 ≠ q.1) (m.filter (fun p => p.1 ≠ k)) :=
  h.filter _

theorem mem_muStore (m : MuMap) (k : List Nat) (d : Datum) (p : List Nat × Datum)
    (h : p ∈ muStore m k d) : p = (k, d) ∨ (p ∈ m ∧ p.1 ≠ k) := by
  rcases List.mem_cons.mp h with h1 | h1
  · exact Or.inl h1
  · right
    have := List.mem_filter.mp h1
    refine ⟨this.1, by simpa using this.2⟩

theorem mem_filter_ne (m : MuMap) (k : List Nat) (p : List Nat × Datum)
    (h : p ∈ m.filter (fun p => p.1 ≠ k)) : p ∈ m ∧ p.1 ≠ k := by
  have := List.mem_filter.mp h
  refine ⟨this.1, by simpa using this.2⟩

theorem muLoad_eq_some_mem (m : MuMap) (k : List Nat) (d : Datum)
    (h : muLoad m k = some d) : (k, d) ∈ m := by
  rw [muLoad] at h
  cases hf : m.find? (fun p => p.1 = k) with
  | none => rw [hf] at h; cases h
  | some p =>
    rw [hf] at h
    have hm := List.mem_of_find?_eq_some hf
    have hp := List.find?_some hf
    simp at hp h
    have hpeq : p = (k, d) := by
      cases p with
      | mk a b => simp at hp h; simp [hp, h]
    exact hpeq ▸ hm

theorem muLoad_of_mem (m : MuMap) (p : List Nat × Datum)
    (hnd : List.Pairwise (fun p q => p.1 ≠ q.1) m) (h : p ∈ m) :
    muLoad m p.1 = some p.2 := by
  induction m with
  | nil => cases h
  | cons q rest ih =>
    rcases List.mem_cons.mp h with h1 | h1
    · subst h1; rw [muLoad_cons, if_pos rfl]
    · rw [muLoad_cons]
      have hne : q.1 ≠ p.1 := (List.pairwise_cons.mp hnd).1 p h1
      rw [if_neg hne]
      exact ih (List.pairwise_cons.mp hnd).2 h1

/-- Folding muStore over a list of records resolves a lookup to the last
record with the key, and otherwise to the original map. -/
theorem muLoad_foldStore (ds : List Datum) (m0 : MuMap) (k : List Nat) :
    muLoad (ds.foldl (fun m d => muStore m d.key d) m0) k =
      match (ds.reverse.find? (fun d => d.key = k)) with
      | some d => some d
      | none => muLoad m0 k := by
  induction ds generalizing m0 with
  | nil => rfl
  | cons d rest ih =>
    rw [List.foldl_cons, ih, List.reverse_cons, List.find?_append]
    cases hf : rest.reverse.find? (fun d => decide (d.key = k)) with
    | some x =>
      simp [Option.or]
    | none =>
      rw [Option.none_or]
      simp only
      by_cases hk : d.key = k
      · subst hk
        have hfd : List.find? (fun x => decide (x.key = d.key)) [d] = some d := by
          simp
        rw [hfd]
        exact muLoad_muStore_self m0 d.key d
      · have hfd : List.find? (fun x => decide (x.key = k)) [d] = none := by
          simp [hk]
        rw [hfd]
        exact muLoad_muStore_other m0 d.key d k (fun hh => hk hh.symm)

/-! The index is driven only by keys: data preservation of the write path -/

theorem vacuum_data (s : Storage) : s.vacuum.1.data = s.data := by
  rw [Storage.vacuum]
  cases h : readAll s.file s.idx with
  | ok p => simp
  | error e => simp

theorem vacuum_config (s : Storage) : s.vacuum.1.config = s.config := by
  rw [Storage.vacuum]
  cases h : readAll s.file s.idx with
  | ok p => simp
  | error e => simp

theorem incAndSync_data (s : Storage) : (incAndSync s).1.data = s.data := by
  rw [incAndSync]
  split
  · rfl
  · split <;> rfl

theorem incAndSync_config (s : Storage) : (incAndSync s).1.config = s.config := by
  rw [incAndSync]
  split
  · rfl
  · split <;> rfl

/-- incAndSync never changes the file: the fsync is a no-op on content and
the inline vacuum hangs before running. -/
theorem incAndSync_file (s : Storage) : (incAndSync s).1.file = s.file := by
  rw [incAndSync]
  split
  · rfl
  · split <;> rfl

theorem incAndSync_idx (s : Storage) : (incAndSync s).1.idx = s.idx := by
  rw [incAndSync]
  split
  · rfl
  · split <;> rfl

/-- incAndSync returns exactly when the vacuum trigger did not fire; when
it fires, the source self-deadlocks. -/
theorem incAndSync_err (s : Storage) :
    (incAndSync s).2 =
      if 0 < s.config.VacuumBatch ∧
          s.config.VacuumBatch ≤ (s.writeCountVacuum + 1) % 2 ^ 64
      then some .deadlock else none := by
  rw [incAndSync]
  by_cases hvac : 0 < s.config.VacuumBatch ∧
      s.config.VacuumBatch ≤ (s.writeCountVacuum + 1) % 2 ^ 64
  · rw [if_pos hvac, if_pos hvac]
  · rw [if_neg hvac, if_neg hvac]
    split <;> rfl

/-- With vacuuming disabled, incAndSync only bumps the counters and never
fails. -/
theorem incAndSync_vb0 (s : Storage) (h : s.config.VacuumBatch = 0) :
    incAndSync s =
      ({ s with
          writeCountSync :=
            if 0 < s.config.FsyncBatch ∧ s.config.FsyncBatch ≤ (s.writeCountSync + 1) % 2 ^ 64
            then 0 else (s.writeCountSync + 1) % 2 ^ 64,
          writeCountVacuum := (s.writeCountVacuum + 1) % 2 ^ 64 }, none) := by
  rw [incAndSync]
  rw [if_neg (by simp [h])]
  by_cases hf : 0 < s.config.FsyncBatch ∧ s.config.FsyncBatch ≤ (s.writeCountSync + 1) % 2 ^ 64
  · rw [if_pos hf, if_pos hf]
  · rw [if_neg hf, if_neg hf]

theorem writeDeletedByte_data (s : Storage) (d : Datum) :
    (writeDeletedByte s d).1.data = s.data := by
  rw [writeDeletedByte]
  exact incAndSync_data _

theorem writeDeletedByte_config (s : Storage) (d : Datum) :
    (writeDeletedByte s d).1.config = s.config := by
  rw [writeDeletedByte]
  exact incAndSync_config _

theorem newDatum_Set_key (k v : List Nat) : (newDatum.Set k v).key = k := by
  rw [Datum.Set]
  by_cases hv : v ≠ ([] : List Nat) <;> by_cases hk : k ≠ ([] : List Nat) <;>
    simp [newDatum, hv, hk] <;> simp at hv hk <;> simp [hv, hk]

theorem newDatum_Set_value (k v : List Nat) : (newDatum.Set k v).value = v := by
  rw [Datum.Set]
  by_cases hv : v ≠ ([] : List Nat) <;> by_cases hk : k ≠ ([] : List Nat) <;>
    simp [newDatum, hv, hk] <;> simp at hv hk <;> simp [hv, hk]

theorem newDatum_Set_meta (k v : List Nat) :
    (newDatum.Set k v).meta =
      { keySize := k.length % 2 ^ 32, valSize := v.length % 2 ^ 32, deleted := 0 } := by
  rw [Datum.Set]
  by_cases hv : v ≠ ([] : List Nat) <;> by_cases hk : k ≠ ([] : List Nat) <;>
    simp [newDatum, hv, hk] <;> simp at hv hk <;> simp [hv, hk]

/-- Where the encoded length stays below 2^32, the executed encoder
succeeds with the clean encoding: none of the uint32 slice arithmetic
wraps. -/
theorem Datum.BytesChecked_of_fit (d : Datum) (h : d.Size < 2 ^ 32) :
    d.BytesChecked = .ok d.Bytes := by
  have hsum : d.meta.keySize + d.meta.valSize + metaSize < 2 ^ 32 := by
    simp only [Datum.Size] at h
    exact h
  have h1 : d.SizeU32 = d.meta.keySize + d.meta.valSize + metaSize := by
    rw [Datum.SizeU32]
    exact Nat.mod_eq_of_lt hsum
  have h2 : (metaSize + d.meta.keySize) % 2 ^ 32 = metaSize + d.meta.keySize := by
    apply Nat.mod_eq_of_lt
    omega
  rw [Datum.BytesChecked]
  simp only [h1, h2]
  rw [if_pos (by refine ⟨by omega, by omega, by omega⟩)]
  have e1 : metaSize + d.meta.keySize - metaSize = d.meta.keySize := by omega
  have e2 : d.meta.keySize + d.meta.valSize + metaSize - (metaSize + d.meta.keySize) =
      d.meta.valSize := by omega
  rw [e1, e2]
  rfl

/-- The size bound that makes a fresh record's append clean: with the
exact key and value lengths below the wrap, the stamped datum encodes
without panicking. -/
theorem newDatum_Set_Size (k v : List Nat) (i : Nat)
    (hcap : metaSize + k.length + v.length < 2 ^ 32) :
    ({ newDatum.Set k v with idx := i } : Datum).Size < 2 ^ 32 ∧
    ({ newDatum.Set k v with idx := i } : Datum).Size =
      metaSize + k.length + v.length := by
  have hm : ({ newDatum.Set k v with idx := i } : Datum).meta = (newDatum.Set k v).meta := rfl
  have hk : k.length % 2 ^ 32 = k.length := Nat.mod_eq_of_lt (by omega)
  have hv : v.length % 2 ^ 32 = v.length := Nat.mod_eq_of_lt (by omega)
  constructor
  · rw [Datum.Size, hm, newDatum_Set_meta]
    simp only [hk, hv]
    omega
  · rw [Datum.Size, hm, newDatum_Set_meta]
    simp only [hk, hv]
    omega

theorem appendDatum_eq (s : Storage) (k v : List Nat)
    (hcap : metaSize + k.length + v.length < 2 ^ 32) :
    appendDatum s k v =
      (let d1 : Datum := { newDatum.Set k v with idx := s.file.length % 2 ^ 32 }
       let r := incAndSync { s with file := s.file ++ d1.Bytes }
       ({ r.1 with data := muStore r.1.data k d1 }, r.2)) := by
  have hbc := Datum.BytesChecked_of_fit
    { newDatum.Set k v with idx := s.file.length % 2 ^ 32 }
    (newDatum_Set_Size k v (s.file.length % 2 ^ 32) hcap).1
  rw [appendDatum, writeDatumToFile]
  simp only [hbc]

/-- The index always receives the stamped fresh datum: appendDatum stores
it before the file write, so this holds even when the encoding panics or
the incAndSync hangs. -/
theorem appendDatum_data (s : Storage) (k v : List Nat) :
    (appendDatum s k v).1.data =
      muStore s.data k { newDatum.Set k v with idx := s.file.length % 2 ^ 32 } := by
  rw [appendDatum, writeDatumToFile]
  cases hbc : ({ newDatum.Set k v with idx := s.file.length % 2 ^ 32 } : Datum).BytesChecked with
  | error e => simp only [hbc]
  | ok b =>
    simp only [hbc]
    rw [incAndSync_data]

theorem appendDatum_config (s : Storage) (k v : List Nat) :
    (appendDatum s k v).1.config = s.config := by
  rw [appendDatum, writeDatumToFile]
  cases hbc : ({ newDatum.Set k v with idx := s.file.length % 2 ^ 32 } : Datum).BytesChecked with
  | error e => simp only [hbc]
  | ok b =>
    simp only [hbc]
    rw [incAndSync_config]

/-- When the fresh record fits, the append extends the file with its
encoding, whether or not the following incAndSync hangs. -/
theorem appendDatum_file (s : Storage) (k v : List Nat)
    (hcap : metaSize + k.length + v.length < 2 ^ 32) :
    (appendDatum s k v).1.file =
      s.file ++ ({ newDatum.Set k v with idx := s.file.length % 2 ^ 32 } : Datum).Bytes := by
  rw [appendDatum_eq s k v hcap]
  simp only
  rw [incAndSync_file]

/-- The tombstone write always lands: writeDeletedByte sets the byte
before incAndSync, which never changes the file. -/
theorem writeDeletedByte_file (s : Storage) (d : Datum) :
    (writeDeletedByte s d).1.file = s.file.set (d.idx + metaSize - 1) d.Deleted := by
  rw [writeDeletedByte]
  exact incAndSync_file _

/-- Set on an unbound key is just appendDatum. -/
theorem Set_eq_of_load_none (s : Storage) (k v : List Nat) (hl : muLoad s.data k = none) :
    s.Set k v = appendDatum s k v := by
  rw [Storage.Set, hl]

/-- Set on a bound key: mark the shared datum (visible in the index),
write the deleted byte, and on success append. -/
theorem Set_eq_of_load_some (s : Storage) (k v : List Nat) (d : Datum)
    (hl : muLoad s.data k = some d) :
    s.Set k v =
      (match writeDeletedByte { s with data := muStore s.data k d.MarkDeleted }
          d.MarkDeleted with
       | (s1, some err) => (s1, some (.reclaimingSpace err))
       | (s1, none) => appendDatum s1 k v) := by
  rw [Storage.Set, hl]
  simp only
  rcases hw : writeDeletedByte { s with data := muStore s.data k d.MarkDeleted }
      d.MarkDeleted with ⟨s1, e⟩
  cases e <;> rfl

/-- Delete on an unbound key does nothing. -/
theorem Delete_eq_of_load_none (s : Storage) (k : List Nat) (hl : muLoad s.data k = none) :
    s.Delete k = (s, none) := by
  rw [Storage.Delete, muLoadAndDelete, hl]

/-- Delete on a bound key removes the binding, then writes the deleted
byte of the marked datum. -/
theorem Delete_eq_of_load_some (s : Storage) (k : List Nat) (d : Datum)
    (hl : muLoad s.data k = some d) :
    s.Delete k =
      ((writeDeletedByte { s with data := s.data.filter (fun p => p.1 ≠ k) }
          d.MarkDeleted).1,
       (writeDeletedByte { s with data := s.data.filter (fun p => p.1 ≠ k) }
          d.MarkDeleted).2.map .reclaimingSpace) := by
  rw [Storage.Delete, muLoadAndDelete, hl]
  simp only [reclaimSpace]

/-- The index binding of the written key after a successful Set is the
fresh datum; its value is the set value. -/
theorem Set_Get_self (s : Storage) (k v : List Nat) (hok : (s.Set k v).2 = none) :
    (s.Set k v).1.Get k = (v, true) := by
  cases hl : muLoad s.data k with
  | none =>
    rw [Set_eq_of_load_none s k v hl]
    rw [Storage.Get, appendDatum_data, muLoad_muStore_self]
    simp [newDatum_Set_value]
  | some d =>
    rw [Set_eq_of_load_some s k v d hl] at hok ⊢
    rcases hw : writeDeletedByte { s with data := muStore s.data k d.MarkDeleted }
        d.MarkDeleted with ⟨s1, e⟩
    rw [hw] at hok
    cases e with
    | some err => simp at hok
    | none =>
      simp only
      rw [Storage.Get, appendDatum_data, muLoad_muStore_self]
      simp [newDatum_Set_value]

/-- A Set leaves every other key's lookup unchanged, whether or not it
succeeds. -/
theorem Set_Get_other (s : Storage) (k v k2 : List Nat) (h : k2 ≠ k) :
    (s.Set k v).1.Get k2 = s.Get k2 := by
  cases hl : muLoad s.data k with
  | none =>
    rw [Set_eq_of_load_none s k v hl]
    rw [Storage.Get, Storage.Get, appendDatum_data, muLoad_muStore_other _ _ _ _ h]
  | some d =>
    rw [Set_eq_of_load_some s k v d hl]
    rcases hw : writeDeletedByte { s with data := muStore s.data k d.MarkDeleted }
        d.MarkDeleted with ⟨s1, e⟩
    have hdata : s1.data = muStore s.data k d.MarkDeleted := by
      have hh := writeDeletedByte_data { s with data := muStore s.data k d.MarkDeleted }
        d.MarkDeleted
      rw [hw] at hh
      simpa using hh
    cases e with
    | some err =>
      simp only
      rw [Storage.Get, Storage.Get, hdata, muLoad_muStore_other _ _ _ _ h]
    | none =>
      simp only
      rw [Storage.Get, Storage.Get, appendDatum_data, muLoad_muStore_other _ _ _ _ h,
        hdata, muLoad_muStore_other _ _ _ _ h]

/-- Delete removes the key's binding, whether or not the tombstone write
succeeds; a missing key stays missing. -/
theorem Delete_Get_self (s : Storage) (k : List Nat) :
    (s.Delete k).1.Get k = ([], false) := by
  cases hl : muLoad s.data k with
  | none =>
    rw [Delete_eq_of_load_none s k hl, Storage.Get, hl]
  | some d =>
    rw [Delete_eq_of_load_some s k d hl]
    have hdata := writeDeletedByte_data { s with data := s.data.filter (fun p => p.1 ≠ k) }
      d.MarkDeleted
    rw [Storage.Get]
    simp only at hdata ⊢
    rw [hdata, muLoad_filter_self]

/-- Delete leaves every other key's lookup unchanged. -/
theorem Delete_Get_other (s : Storage) (k k2 : List Nat) (h : k2 ≠ k) :
    (s.Delete k).1.Get k2 = s.Get k2 := by
  cases hl : muLoad s.data k with
  | none => rw [Delete_eq_of_load_none s k hl]
  | some d =>
    rw [Delete_eq_of_load_some s k d hl]
    have hdata := writeDeletedByte_data { s with data := s.data.filter (fun p => p.1 ≠ k) }
      d.MarkDeleted
    rw [Storage.Get, Storage.Get]
    simp only at hdata ⊢
    rw [hdata, muLoad_filter_other _ _ _ h]

/-! Replay of operation sequences against the index -/

theorem lastOpOn_foldl_acc (ops : List Op) (k : List Nat) (a : Option Op) :
    ops.foldl
      (fun acc op =>
        match op with
        | .set k2 _ => if k2 = k then some op else acc
        | .del k2 => if k2 = k then some op else acc) a =
      match lastOpOn ops k with
      | some x => some x
      | none => a := by
  induction ops generalizing a with
  | nil => rfl
  | cons op rest ih =>
    rw [List.foldl_cons]
    rw [ih]
    have hR : lastOpOn (op :: rest) k =
        rest.foldl
          (fun acc op =>
            match op with
            | .set k2 _ => if k2 = k then some op else acc
            | .del k2 => if k2 = k then some op else acc)
          (match op with
           | .set k2 _ => if k2 = k then some op else none
           | .del k2 => if k2 = k then some op else none) := rfl
    rw [hR, ih]
    cases hL : lastOpOn rest k with
    | some x => rfl
    | none =>
      cases op with
      | set k2 v => by_cases hk : k2 = k <;> simp [hk]
      | del k2 => by_cases hk : k2 = k <;> simp [hk]

theorem lastOpOn_cons (op : Op) (rest : List Op) (k : List Nat) :
    lastOpOn (op :: rest) k =
      match lastOpOn rest k with
      | some x => some x
      | none =>
        match op with
        | .set k2 _ => if k2 = k then some op else none
        | .del k2 => if k2 = k then some op else none := by
  have hR : lastOpOn (op :: rest) k =
      rest.foldl
        (fun acc op =>
          match op with
          | .set k2 _ => if k2 = k then some op else acc
          | .del k2 => if k2 = k then some op else acc)
        (match op with
         | .set k2 _ => if k2 = k then some op else none
         | .del k2 => if k2 = k then some op else none) := rfl
  rw [hR, lastOpOn_foldl_acc]

/-- Replaying a sequence in which every operation succeeds leaves each
key's lookup governed by the last operation touching it. -/
theorem Get_runOps (ops : List Op) : ∀ (s : Storage) (k : List Nat),
    allOk s ops = true →
    Storage.Get (runOps s ops) k =
      match lastOpOn ops k with
      | some (.set _ v) => (v, true)
      | some (.del _) => ([], false)
      | none => s.Get k := by
  induction ops with
  | nil =>
    intro s k _
    rfl
  | cons op rest ih =>
    intro s k hok
    rcases ha : applyOp s op with ⟨s1, e⟩
    have hok2 : e.isNone = true ∧ allOk s1 rest = true := by
      rw [allOk, ha] at hok
      simp only at hok
      exact (Bool.and_eq_true ..).mp hok
    have hrun : runOps s (op :: rest) = runOps s1 rest := by
      simp [runOps, ha]
    rw [hrun, ih s1 k hok2.2, lastOpOn_cons]
    cases hL : lastOpOn rest k with
    | some x => cases x <;> rfl
    | none =>
      simp only
      cases op with
      | set k2 v =>
        have hset : s.Set k2 v = (s1, e) := ha
        by_cases hk : k2 = k
        · subst hk
          have he : e = none := by
            cases e with
            | none => rfl
            | some err => simp at hok2
          have h2 := Set_Get_self s k2 v (by rw [hset, he])
          rw [hset] at h2
          simpa using h2
        · have h2 := Set_Get_other s k2 v k (fun hh => hk hh.symm)
          rw [hset] at h2
          simpa [hk] using h2
      | del k2 =>
        have hdel : s.Delete k2 = (s1, e) := ha
        by_cases hk : k2 = k
        · subst hk
          have h2 := Delete_Get_self s k2
          rw [hdel] at h2
          simpa using h2
        · have h2 := Delete_Get_other s k2 k (fun hh => hk hh.symm)
          rw [hdel] at h2
          simpa [hk] using h2

/-- C1: for every finite sequence of Set and Delete operations applied to
a store opened on an empty file, Get afterwards returns the value and
true exactly when the last operation on the key was a Set with no later
Delete, and the empty value with false otherwise.  An operation that
trips the inline-vacuum threshold never returns in the source (the
self-deadlock of incAndSync), and one whose fresh record reaches 2^32
encoded bytes panics, so "afterwards" exists exactly for replays in
which every operation returns a nil error; the hypothesis allOk states
that, and under it the replay is exactly last-write-wins. -/
theorem C1_replay (cfg : Config) (s0 : Storage) (ops : List Op) (k : List Nat)
    (hopen : NewStorage [] (some cfg) = .ok s0)
    (hok : allOk s0 ops = true) :
    Storage.Get (runOps s0 ops) k =
      match lastOpOn ops k with
      | some (.set _ v) => (v, true)
      | _ => ([], false) := by
  have hlit : NewStorage [] (some cfg) =
      .ok { file := [], data := [], idx := 0, writeCountSync := 0,
            writeCountVacuum := 0, config := cfg } := rfl
  rw [hlit] at hopen
  have hinit : s0 =
      { file := [], data := [], idx := 0, writeCountSync := 0,
        writeCountVacuum := 0, config := cfg } := (Except.ok.inj hopen).symm
  subst hinit
  rw [Get_runOps ops _ k hok]
  cases hL : lastOpOn ops k with
  | none => rfl
  | some x => cases x <;> rfl

/-- Witness: a two-operation run on an empty store with vacuum and fsync
disabled, evaluated through the C1 theorem. -/
theorem C1_replay_witness :
    Storage.Get
        (runOps
          { file := [], data := [], idx := 0, writeCountSync := 0,
            writeCountVacuum := 0, config := { VacuumBatch := 0, FsyncBatch := 0 } }
          [.set [1] [2], .set [3] [4]])
        [1] =
      match lastOpOn [.set [1] [2], .set [3] [4]] [1] with
      | some (.set _ v) => (v, true)
      | _ => ([], false) :=
  C1_replay { VacuumBatch := 0, FsyncBatch := 0 } _ [.set [1] [2], .set [3] [4]] [1]
    rfl (by decide)

/-- C8 amended: for every key and value whose encoded record stays below
2^32 bytes, the executed encoder succeeds with the clean encoding and
decoding the result through the header and key-value codecs yields the
same record; the header with key size 8675309, value size 10 and deleted
1 encodes to ED 5F 84 00 0A 00 00 00 01, decoding those bytes yields the
same header, and decoding a 3-byte slice fails with the
invalid-meta-slice error.  (Beyond that bound the claim fails: the
uint32 size arithmetic wraps and the encoder panics, see the
counterexample.) -/
theorem C8_roundtrip :
    (∀ (key value : List Nat), key.length + value.length + metaSize < 2 ^ 32 →
      (newDatum.Set key value).BytesChecked = .ok (newDatum.Set key value).Bytes ∧
      Meta.FromBytes ((newDatum.Set key value).Bytes.take metaSize) =
          .ok (newDatum.Set key value).meta ∧
      Datum.KeyValFromBytes
          { meta := (newDatum.Set key value).meta, key := [], value := [], idx := 0 }
          ((newDatum.Set key value).Bytes.drop metaSize) =
        .ok { meta := (newDatum.Set key value).meta, key := key, value := value,
              idx := 0 }) ∧
    Meta.Bytes { keySize := 8675309, valSize := 10, deleted := 1 } =
      [0xED, 0x5F, 0x84, 0x00, 0x0A, 0x00, 0x00, 0x00, 0x01] ∧
    Meta.FromBytes [0xED, 0x5F, 0x84, 0x00, 0x0A, 0x00, 0x00, 0x00, 0x01] =
      .ok { keySize := 8675309, valSize := 10, deleted := 1 } ∧
    Meta.FromBytes [0x62, 0x61, 0x64] = .error .invalidMetaSlice := by
  refine ⟨?_, by decide, rfl, rfl⟩
  intro key value hsum
  have hk : key.length < 2 ^ 32 := by simp only [metaSize] at hsum; omega
  have hv : value.length < 2 ^ 32 := by simp only [metaSize] at hsum; omega
  set d := newDatum.Set key value with hd
  have hmeta : d.meta = { keySize := key.length, valSize := value.length, deleted := 0 } := by
    rw [hd, newDatum_Set_meta, Nat.mod_eq_of_lt hk, Nat.mod_eq_of_lt hv]
  have hkey : d.key = key := newDatum_Set_key key value
  have hval : d.value = value := newDatum_Set_value key value
  have hsize : d.Size < 2 ^ 32 := by
    rw [Datum.Size, hmeta]
    simp only [metaSize] at hsum ⊢
    omega
  have hpad1 : padTrunc d.meta.keySize d.key = key := by
    rw [hmeta, hkey]; exact padTrunc_of_length key
  have hpad2 : padTrunc d.meta.valSize d.value = value := by
    rw [hmeta, hval]; exact padTrunc_of_length value
  have hbytes : d.Bytes = d.meta.Bytes ++ (key ++ value) := by
    simp [Datum.Bytes, hpad1, hpad2]
  have h9take : d.Bytes.take metaSize = d.meta.Bytes := by
    rw [hbytes, show metaSize = (d.meta.Bytes).length from (Meta.length_Bytes d.meta).symm,
      List.take_left]
  have h9drop : d.Bytes.drop metaSize = key ++ value := by
    rw [hbytes, show metaSize = (d.meta.Bytes).length from (Meta.length_Bytes d.meta).symm,
      List.drop_left]
  refine ⟨Datum.BytesChecked_of_fit d hsize, ?_, ?_⟩
  · rw [h9take]
    exact Meta.FromBytes_Bytes d.meta (by rw [hmeta]; exact hk) (by rw [hmeta]; exact hv)
  · rw [h9drop, Datum.KeyValFromBytes]
    have hlen : (key ++ value).length = d.meta.keySize + d.meta.valSize := by
      rw [hmeta]; simp
    have htot : (d.meta.keySize + d.meta.valSize) % 2 ^ 32 =
        d.meta.keySize + d.meta.valSize := by
      apply Nat.mod_eq_of_lt
      rw [hmeta]
      show key.length + value.length < 2 ^ 32
      simp only [metaSize] at hsum
      omega
    simp only [hlen, htot, ne_eq, not_true_eq_false, if_false]
    rw [if_pos ⟨Nat.le_add_right _ _, Nat.le_refl _⟩]
    have t1 : (key ++ value).take d.meta.keySize = key := by
      rw [hmeta]
      simp only
      rw [show key.length = key.length from rfl, List.take_left]
    have t2 : ((key ++ value).drop d.meta.keySize).take
        (d.meta.keySize + d.meta.valSize - d.meta.keySize) = value := by
      rw [Nat.add_sub_cancel_left, hmeta]
      simp only
      rw [List.drop_left, List.take_length]
    rw [t1, t2]

/-- Witness: the C8 round-trip evaluated at key 1 2 and value 3 4 5. -/
theorem C8_roundtrip_witness :
    (newDatum.Set [1, 2] [3, 4, 5]).BytesChecked = .ok (newDatum.Set [1, 2] [3, 4, 5]).Bytes ∧
    Meta.FromBytes ((newDatum.Set [1, 2] [3, 4, 5]).Bytes.take metaSize) =
        .ok (newDatum.Set [1, 2] [3, 4, 5]).meta ∧
    Datum.KeyValFromBytes
        { meta := (newDatum.Set [1, 2] [3, 4, 5]).meta, key := [], value := [], idx := 0 }
        ((newDatum.Set [1, 2] [3, 4, 5]).Bytes.drop metaSize) =
      .ok { meta := (newDatum.Set [1, 2] [3, 4, 5]).meta, key := [1, 2], value := [3, 4, 5],
            idx := 0 } :=
  C8_roundtrip.1 [1, 2] [3, 4, 5] (by decide)

/-- C8: the claim fails as stated.  For a key and value of 2^31 bytes
each - both lengths representable in 32 bits, as the claim requires -
datum.Bytes allocates make([]byte, d.Size()) with the wrapped uint32 size
2^31 + 2^31 + 9 mod 2^32 = 9 and then slices b[9 : 9 + 2^31], which
panics: encoding aborts the program instead of producing a record that
decodes back. -/
theorem C8_counterexample :
    (List.replicate (2 ^ 31) 0).length < 2 ^ 32 ∧
    (newDatum.Set (List.replicate (2 ^ 31) 0) (List.replicate (2 ^ 31) 0)).BytesChecked =
      .error .sliceOutOfRange := by
  constructor
  · rw [List.length_replicate]
    decide
  · have hmeta := newDatum_Set_meta (List.replicate (2 ^ 31) 0) (List.replicate (2 ^ 31) 0)
    rw [List.length_replicate] at hmeta
    rw [Datum.BytesChecked, Datum.SizeU32, hmeta]
    rw [if_neg (by decide)]

/-- C6 amended: on a file of well-formed records followed by a complete
9-byte header whose deleted byte is not 1, with fewer body bytes than the
wrapping uint32 sum key size + val size the source computes, Open fails
with the short-body error carrying exactly the documented message, whose
need figure is that wrapped sum. -/
theorem C6_amended (recs : List Datum) (m : Meta) (tail : List Nat) (cfg : Option Config)
    (hwf : ∀ d ∈ recs, WfDatum d) (hk : m.keySize < 2 ^ 32) (hv : m.valSize < 2 ^ 32)
    (hdel : m.deleted ≠ 1)
    (hshort : tail.length < (m.keySize + m.valSize) % 2 ^ 32) :
    NewStorage (serializeRecs recs ++ (m.Bytes ++ tail)) cfg =
      .error (.readingDatum
        (.shortKeyVal tail.length ((m.keySize + m.valSize) % 2 ^ 32))) ∧
    errMessage (.shortKeyVal tail.length ((m.keySize + m.valSize) % 2 ^ 32)) =
      "reading database file: reading key/val data: read " ++ Nat.repr tail.length ++
        " bytes, need " ++ Nat.repr ((m.keySize + m.valSize) % 2 ^ 32) := by
  constructor
  · have hstep : readDatum (m.Bytes ++ tail) (cumIdx recs 0) =
        .fail (.shortKeyVal tail.length ((m.keySize + m.valSize) % 2 ^ 32)) := by
      have hlen : (m.Bytes ++ tail).length = metaSize + tail.length := by
        simp [Meta.length_Bytes]
      have hne : (m.Bytes ++ tail).isEmpty = false := by
        cases hc : (m.Bytes ++ tail) with
        | nil =>
          rw [hc] at hlen
          simp only [List.length_nil, metaSize] at hlen
          omega
        | cons a l => rfl
      have hpad : padTrunc metaSize (m.Bytes ++ tail) = m.Bytes := by
        rw [padTrunc_of_le _ _ (by omega),
          show metaSize = (Meta.Bytes m).length from (Meta.length_Bytes m).symm,
          List.take_left]
      have hfb : Meta.FromBytes (padTrunc metaSize (m.Bytes ++ tail)) = .ok m := by
        rw [hpad]; exact Meta.FromBytes_Bytes m hk hv
      have hdrop : (m.Bytes ++ tail).drop metaSize = tail := by
        rw [show metaSize = (Meta.Bytes m).length from (Meta.length_Bytes m).symm,
          List.drop_left]
      rw [readDatum]
      simp only [hne, Bool.false_eq_true, if_false, hfb, hdrop]
      rw [if_neg hdel]
      have hmin : min ((m.keySize + m.valSize) % 2 ^ 32) tail.length = tail.length := by
        omega
      rw [hmin, if_pos (by omega)]
    have hsuffix : readAll (m.Bytes ++ tail) (cumIdx recs 0) =
        .error (.shortKeyVal tail.length ((m.keySize + m.valSize) % 2 ^ 32)) := by
      rw [readAll_eq, hstep]
    rw [NewStorage]
    rw [readAll_append recs (m.Bytes ++ tail) 0 hwf, hsuffix]
    rfl
  · rfl

/-- Witness: a concrete live 9-byte header advertising 2 body bytes with
only 1 present, opened through the amended C6 theorem. -/
theorem C6_amended_witness :
    NewStorage (serializeRecs [] ++
        (Meta.Bytes { keySize := 1, valSize := 1, deleted := 0 } ++ [7])) none =
      .error (.readingDatum (.shortKeyVal 1 ((1 + 1) % 2 ^ 32))) ∧
    errMessage (.shortKeyVal 1 ((1 + 1) % 2 ^ 32)) =
      "reading database file: reading key/val data: read " ++ Nat.repr 1 ++
        " bytes, need " ++ Nat.repr ((1 + 1) % 2 ^ 32) := by
  have h := C6_amended [] { keySize := 1, valSize := 1, deleted := 0 } [7] none
    (by intro d hd; cases hd) (by decide) (by decide) (by decide) (by decide)
  exact h

theorem sizeSum_filter_le (recs : List Datum) (p : Datum → Bool) :
    sizeSum (recs.filter p) ≤ sizeSum recs := by
  unfold sizeSum
  exact List.Sublist.sum_le_sum ((List.filter_sublist recs).map Datum.Size)
    (by intro a _; omega)

/-- C4: on any store whose file serialises a list of well-formed records
that fits in 32 bits, vacuum succeeds, leaves the in-memory index
untouched, replaces the file with the concatenation of the live records
in their original order, truncates it to exactly the sum of their sizes,
and sets the append cursor idx to that size. -/
theorem C4_vacuum_spec (s : Storage) (recs : List Datum)
    (hfile : s.file = serializeRecs recs) (hwf : ∀ d ∈ recs, WfDatum d)
    (hfit : sizeSum recs < 2 ^ 32) :
    ∃ s2, s.vacuum = (s2, none) ∧
      s2.data = s.data ∧
      s2.file = serializeRecs (recs.filter (fun d => d.Deleted != 1)) ∧
      s2.file.length = sizeSum (recs.filter (fun d => d.Deleted != 1)) ∧
      s2.idx = s2.file.length := by
  have hser : ((scanOut recs s.idx).map Datum.Bytes).flatten =
      serializeRecs (recs.filter (fun d => d.Deleted != 1)) := by
    rw [scanOut_bytes]
    rfl
  have hflen : (serializeRecs (recs.filter (fun d => d.Deleted != 1))).length =
      sizeSum (recs.filter (fun d => d.Deleted != 1)) :=
    serializeRecs_length _
  have hle : sizeSum (recs.filter (fun d => d.Deleted != 1)) ≤ sizeSum recs :=
    sizeSum_filter_le recs _
  rw [Storage.vacuum, hfile, readAll_serialize recs s.idx hwf]
  refine ⟨_, rfl, rfl, ?_, ?_, ?_⟩
  · simpa using hser
  · simp only [hser, hflen]
  · simp only [hser, hflen]
    exact Nat.mod_eq_of_lt (by omega)

/-- Witness: vacuum evaluated through the C4 theorem on the concrete
store with records a tombstoned and b live. -/
theorem C4_vacuum_spec_witness :
    ∃ s2, storeAB.vacuum = (s2, none) ∧
      s2.data = storeAB.data ∧
      s2.file = serializeRecs
        ([{ meta := ⟨1, 3, 1⟩, key := [97], value := [1, 2, 3], idx := 0 },
          { meta := ⟨1, 3, 0⟩, key := [98], value := [4, 5, 6], idx := 13 }].filter
          (fun d => d.Deleted != 1)) ∧
      s2.file.length = sizeSum
        ([{ meta := ⟨1, 3, 1⟩, key := [97], value := [1, 2, 3], idx := 0 },
          { meta := ⟨1, 3, 0⟩, key := [98], value := [4, 5, 6], idx := 13 }].filter
          (fun d => d.Deleted != 1)) ∧
      s2.idx = s2.file.length :=
  C4_vacuum_spec storeAB
    [{ meta := ⟨1, 3, 1⟩, key := [97], value := [1, 2, 3], idx := 0 },
     { meta := ⟨1, 3, 0⟩, key := [98], value := [4, 5, 6], idx := 13 }]
    (by decide) (by decide) (by decide)

/-- C9: the claim fails against the source.  Both write operations
(record append and tombstone write) funnel through incAndSync, which
increments both uint64 write counters; when VacuumBatch is 0 or the
vacuum counter is below it, the fsync trigger behaves as specified
(sync and reset when FsyncBatch is positive and reached, disabled at 0)
and the write returns success.  But when VacuumBatch is positive and the
vacuum counter reaches it, the claimed inline vacuum never happens:
vacuum() re-locks the file mutex that writeDatumToFile or
writeDeletedByte still holds, the goroutine self-deadlocks, the vacuum
counter is never reset, and the triggering write never returns - the
deadlock sentinel, not the success the claim requires. -/
theorem C9_vacuum_trigger_hangs (s : Storage) (d : Datum) :
    (writeDeletedByte s d =
      incAndSync { s with file := s.file.set (d.idx + metaSize - 1) d.Deleted }) ∧
    (incAndSync s).1.file = s.file ∧
    (incAndSync s).1.data = s.data ∧
    (incAndSync s).1.writeCountVacuum = (s.writeCountVacuum + 1) % 2 ^ 64 ∧
    (incAndSync s).1.writeCountSync =
      (if ¬(0 < s.config.VacuumBatch ∧
            s.config.VacuumBatch ≤ (s.writeCountVacuum + 1) % 2 ^ 64) ∧
          0 < s.config.FsyncBatch ∧ s.config.FsyncBatch ≤ (s.writeCountSync + 1) % 2 ^ 64
       then 0 else (s.writeCountSync + 1) % 2 ^ 64) ∧
    (incAndSync s).2 =
      (if 0 < s.config.VacuumBatch ∧
          s.config.VacuumBatch ≤ (s.writeCountVacuum + 1) % 2 ^ 64
       then some .deadlock else none) := by
  refine ⟨rfl, incAndSync_file s, incAndSync_data s, ?_, ?_, incAndSync_err s⟩
  · rw [incAndSync]
    by_cases hvac : 0 < s.config.VacuumBatch ∧
        s.config.VacuumBatch ≤ (s.writeCountVacuum + 1) % 2 ^ 64
    · rw [if_pos hvac]
    · rw [if_neg hvac]
      by_cases hfs : 0 < s.config.FsyncBatch ∧
          s.config.FsyncBatch ≤ (s.writeCountSync + 1) % 2 ^ 64
      · rw [if_pos hfs]
      · rw [if_neg hfs]
  · rw [incAndSync]
    by_cases hvac : 0 < s.config.VacuumBatch ∧
        s.config.VacuumBatch ≤ (s.writeCountVacuum + 1) % 2 ^ 64
    · rw [if_pos hvac, if_neg (fun h => h.1 hvac)]
    · rw [if_neg hvac]
      by_cases hfs : 0 < s.config.FsyncBatch ∧
          s.config.FsyncBatch ≤ (s.writeCountSync + 1) % 2 ^ 64
      · rw [if_pos hfs, if_pos ⟨hvac, hfs⟩]
      · rw [if_neg hfs, if_neg (fun h => hfs h.2)]

/-! Invariant machinery for vacuum-free runs -/

theorem sizeSum_append (l1 l2 : List Datum) :
    sizeSum (l1 ++ l2) = sizeSum l1 + sizeSum l2 := by
  simp [sizeSum]

theorem sizeSum_markAt (recs : List Datum) (t : Nat) :
    sizeSum (markAt recs t) = sizeSum recs := by
  unfold sizeSum markAt
  rw [List.map_map]
  apply congrArg
  apply List.map_congr_left
  intro a _
  by_cases h : a.idx = t
  · simp only [Function.comp, if_pos h]
    rfl
  · simp only [Function.comp, if_neg h]

theorem offsetsFromB_markAt (recs : List Datum) (t base : Nat) :
    offsetsFromB (markAt recs t) base = offsetsFromB recs base := by
  induction recs generalizing base with
  | nil => rfl
  | cons x rest ih =>
    rw [markAt_cons]
    by_cases hx : x.idx = t
    · rw [if_pos hx, offsetsFromB_cons, offsetsFromB_cons]
      have h1 : ({ x with meta := { x.meta with deleted := 1 } } : Datum).idx = x.idx := rfl
      have h2 : ({ x with meta := { x.meta with deleted := 1 } } : Datum).Size = x.Size := rfl
      rw [h1, h2, ih]
    · rw [if_neg hx, offsetsFromB_cons, offsetsFromB_cons, ih]

theorem WfDatum_mark (d : Datum) (h : WfDatum d) :
    WfDatum { d with meta := { d.meta with deleted := 1 } } := by
  obtain ⟨h1, h2, h3, h4, h5, _⟩ := h
  exact ⟨h1, h2, h3, h4, h5, Or.inr rfl⟩

theorem WfDatum_markAt (recs : List Datum) (t : Nat) (hwf : ∀ d ∈ recs, WfDatum d) :
    ∀ d ∈ markAt recs t, WfDatum d := by
  intro d hd
  rw [markAt] at hd
  obtain ⟨x, hx, hfx⟩ := List.mem_map.mp hd
  by_cases hxt : x.idx = t
  · rw [if_pos hxt] at hfx
    rw [← hfx]
    exact WfDatum_mark x (hwf x hx)
  · rw [if_neg hxt] at hfx
    rw [← hfx]
    exact hwf x hx

theorem mem_markAt_of_mem_ne (recs : List Datum) (t : Nat) (x : Datum)
    (hx : x ∈ recs) (hne : x.idx ≠ t) : x ∈ markAt recs t := by
  rw [markAt]
  have : x = (fun y => if y.idx = t then { y with meta := { y.meta with deleted := 1 } }
      else y) x := by
    simp [hne]
  rw [this]
  exact List.mem_map_of_mem _ hx

theorem mem_markAt_self (recs : List Datum) (d : Datum) (hd : d ∈ recs) :
    { d with meta := { d.meta with deleted := 1 } } ∈ markAt recs d.idx := by
  rw [markAt]
  have : ({ d with meta := { d.meta with deleted := 1 } } : Datum) =
      (fun y => if y.idx = d.idx then { y with meta := { y.meta with deleted := 1 } }
        else y) d := by
    simp
  rw [this]
  exact List.mem_map_of_mem _ hd

theorem mem_markAt_elim (recs : List Datum) (t : Nat) (x : Datum)
    (hx : x ∈ markAt recs t) :
    ∃ y ∈ recs, (y.idx = t ∧ x = { y with meta := { y.meta with deleted := 1 } }) ∨
      (y.idx ≠ t ∧ x = y) := by
  rw [markAt] at hx
  obtain ⟨y, hy, hfy⟩ := List.mem_map.mp hx
  by_cases hyt : y.idx = t
  · rw [if_pos hyt] at hfy
    exact ⟨y, hy, Or.inl ⟨hyt, hfy.symm⟩⟩
  · rw [if_neg hyt] at hfy
    exact ⟨y, hy, Or.inr ⟨hyt, hfy.symm⟩⟩

theorem offsets_pairwise_idx (recs : List Datum) (base : Nat)
    (h : offsetsFromB recs base = true) :
    List.Pairwise (fun a b => a.idx < b.idx) recs := by
  induction recs generalizing base with
  | nil => exact List.Pairwise.nil
  | cons x rest ih =>
    obtain ⟨hx, hrest⟩ := offsetsFromB_cons_elim h
    rw [List.pairwise_cons]
    constructor
    · intro y hy
      have hs : metaSize ≤ x.Size := Datum.Size_ge x
      have := offsetsFromB_mem_lb rest (base + x.Size) hrest y hy
      simp only [metaSize] at hs
      omega
    · exact ih (base + x.Size) hrest

theorem pairwise_keys_unique (m : MuMap)
    (hnd : List.Pairwise (fun p q => p.1 ≠ q.1) m) :
    ∀ p ∈ m, ∀ q ∈ m, p.1 = q.1 → p = q := by
  induction m with
  | nil => intro p hp; cases hp
  | cons a rest ih =>
    intro p hp q hq hpq
    have hhead := (List.pairwise_cons.mp hnd).1
    have htail := (List.pairwise_cons.mp hnd).2
    rcases List.mem_cons.mp hp with h1 | h1 <;> rcases List.mem_cons.mp hq with h2 | h2
    · rw [h1, h2]
    · subst h1; exact absurd hpq (hhead q h2)
    · subst h2; exact absurd hpq.symm (hhead p h1)
    · exact ih htail p h1 q h2 hpq

/-- The invariant forces at most one live record per key. -/
theorem StoreInv_oneLive (s : Storage) (recs : List Datum) (hInv : StoreInv s recs) :
    OneLivePerKey recs := by
  obtain ⟨hfile, hoffs, hwf, hfit, hlive, hmap, hnd⟩ := hInv
  have hp := offsets_pairwise_idx recs 0 hoffs
  rw [OneLivePerKey]
  refine hp.imp_of_mem ?_
  intro a b ha hb hlt hla hlb hkey
  have h1 := hlive a ha hla
  have h2 := hlive b hb hlb
  rw [hkey] at h1
  have h3 := h1.symm.trans h2
  have h4 : a = b := by injection h3
  rw [h4] at hlt
  omega

/-- Set of an unbound key on a store whose data fits: appends the fresh
record at the end of the file and installs it in the index.  The state
change does not depend on whether the trailing incAndSync hangs, because
both the file write and the index store precede it. -/
theorem Set_none_inv (s : Storage) (recs : List Datum) (k v : List Nat)
    (hInv : StoreInv s recs)
    (hl : muLoad s.data k = none)
    (hfit : sizeSum recs + (metaSize + k.length + v.length) < 2 ^ 32) :
    StoreInv (s.Set k v).1 (recs ++ [{ newDatum.Set k v with idx := s.file.length }]) ∧
    sizeSum (recs ++ [{ newDatum.Set k v with idx := s.file.length }]) =
      sizeSum recs + (metaSize + k.length + v.length) := by
  obtain ⟨hfile, hoffs, hwf, hfit0, hlive, hmap, hnd⟩ := hInv
  have hk32 : k.length < 2 ^ 32 := by simp only [metaSize] at hfit; omega
  have hv32 : v.length < 2 ^ 32 := by simp only [metaSize] at hfit; omega
  have hcap : metaSize + k.length + v.length < 2 ^ 32 := by omega
  have hflen : s.file.length = sizeSum recs := by rw [hfile, serializeRecs_length]
  have hmod : s.file.length % 2 ^ 32 = s.file.length := by
    rw [hflen]; exact Nat.mod_eq_of_lt (by omega)
  set d1 : Datum := { newDatum.Set k v with idx := s.file.length } with hd1
  have hd1meta : d1.meta = ⟨k.length, v.length, 0⟩ := by
    rw [hd1]
    simp only
    rw [newDatum_Set_meta, Nat.mod_eq_of_lt hk32, Nat.mod_eq_of_lt hv32]
  have hd1key : d1.key = k := newDatum_Set_key k v
  have hd1val : d1.value = v := newDatum_Set_value k v
  have hd1size : d1.Size = metaSize + k.length + v.length := by
    rw [Datum.Size, hd1meta]
    simp only [metaSize]
    omega
  have hd1wf : WfDatum d1 := by
    refine ⟨?_, ?_, ?_, ?_, ?_, ?_⟩
    · rw [hd1key, hd1meta]
    · rw [hd1val, hd1meta]
    · rw [hd1meta]; exact hk32
    · rw [hd1meta]; exact hv32
    · rw [hd1size]; omega
    · rw [hd1meta]; exact Or.inl rfl
  have hstate : (s.Set k v).1.file = s.file ++ d1.Bytes ∧
      (s.Set k v).1.data = muStore s.data k d1 := by
    rw [Set_eq_of_load_none s k v hl]
    constructor
    · rw [appendDatum_file s k v hcap, hmod]
    · rw [appendDatum_data, hmod]
  have hsz : sizeSum (recs ++ [d1]) = sizeSum recs + (metaSize + k.length + v.length) := by
    rw [sizeSum_append]
    simp [sizeSum, hd1size]
  refine ⟨?_, hsz⟩
  refine ⟨?_, ?_, ?_, ?_, ?_, ?_, ?_⟩
  · rw [hstate.1, hfile, serializeRecs_append]
    simp [serializeRecs]
  · exact offsetsFromB_append_one recs d1 0 hoffs (by simp [hd1, hflen])
  · intro x hx
    rcases List.mem_append.mp hx with h1 | h1
    · exact hwf x h1
    · rw [List.mem_singleton.mp h1]
      exact hd1wf
  · omega
  · intro x hx hxdel
    rw [hstate.2]
    rcases List.mem_append.mp hx with h1 | h1
    · have hxk : x.key ≠ k := by
        intro hh
        have := hlive x h1 hxdel
        rw [hh, hl] at this
        cases this
      rw [muLoad_muStore_other _ _ _ _ hxk]
      exact hlive x h1 hxdel
    · rw [List.mem_singleton.mp h1, hd1key]
      exact muLoad_muStore_self _ _ _
  · intro p hp
    rw [hstate.2] at hp
    rcases mem_muStore _ _ _ _ hp with h1 | h1
    · rw [h1]
      exact ⟨by simp, by rw [hd1meta], by rw [hd1key]⟩
    · obtain ⟨hpm, _⟩ := h1
      obtain ⟨ha, hb, hc⟩ := hmap p hpm
      exact ⟨List.mem_append.mpr (Or.inl ha), hb, hc⟩
  · rw [hstate.2]
    exact muStore_pairwise _ _ _ hnd

theorem writeDeletedByte_vb0 (s : Storage) (d : Datum) (hvb : s.config.VacuumBatch = 0) :
    writeDeletedByte s d =
      ({ s with
          file := s.file.set (d.idx + metaSize - 1) d.Deleted,
          writeCountSync :=
            if 0 < s.config.FsyncBatch ∧
                s.config.FsyncBatch ≤ (s.writeCountSync + 1) % 2 ^ 64
            then 0 else (s.writeCountSync + 1) % 2 ^ 64,
          writeCountVacuum := (s.writeCountVacuum + 1) % 2 ^ 64 }, none) := by
  rw [writeDeletedByte,
    incAndSync_vb0 { s with file := s.file.set (d.idx + metaSize - 1) d.Deleted } hvb]

/-- Set of a bound key on a store whose data fits, when the Set returns:
writes the tombstone byte at the old descriptor's offset plus 8 strictly
before appending the fresh record at the end of the file.  The success
hypothesis pins the branch: had the tombstone write's incAndSync hung,
Set would have returned the deadlock error without appending. -/
theorem Set_some_ok (s : Storage) (recs : List Datum) (k v : List Nat) (d : Datum)
    (hInv : StoreInv s recs)
    (hl : muLoad s.data k = some d)
    (hfit : sizeSum recs + (metaSize + k.length + v.length) < 2 ^ 32)
    (hok : (s.Set k v).2 = none) :
    (s.Set k v).1.file = (s.file.set (d.idx + metaSize - 1) 1) ++
      Datum.Bytes { newDatum.Set k v with idx := s.file.length } ∧
    StoreInv (s.Set k v).1
      (markAt recs d.idx ++ [{ newDatum.Set k v with idx := s.file.length }]) ∧
    sizeSum (markAt recs d.idx ++ [{ newDatum.Set k v with idx := s.file.length }]) =
      sizeSum recs + (metaSize + k.length + v.length) := by
  obtain ⟨hfile, hoffs, hwf, hfit0, hlive, hmap, hnd⟩ := hInv
  have hdmem0 : (k, d) ∈ s.data := muLoad_eq_some_mem _ _ _ hl
  obtain ⟨hdrec, hddel, hdkey⟩ := hmap (k, d) hdmem0
  simp only at hdrec hddel hdkey
  have hk32 : k.length < 2 ^ 32 := by simp only [metaSize] at hfit; omega
  have hv32 : v.length < 2 ^ 32 := by simp only [metaSize] at hfit; omega
  have hcap : metaSize + k.length + v.length < 2 ^ 32 := by omega
  have hflen : s.file.length = sizeSum recs := by rw [hfile, serializeRecs_length]
  have hmod : s.file.length % 2 ^ 32 = s.file.length := by
    rw [hflen]; exact Nat.mod_eq_of_lt (by omega)
  set d1 : Datum := { newDatum.Set k v with idx := s.file.length } with hd1
  have hd1meta : d1.meta = ⟨k.length, v.length, 0⟩ := by
    rw [hd1]
    simp only
    rw [newDatum_Set_meta, Nat.mod_eq_of_lt hk32, Nat.mod_eq_of_lt hv32]
  have hd1key : d1.key = k := newDatum_Set_key k v
  have hd1val : d1.value = v := newDatum_Set_value k v
  have hd1size : d1.Size = metaSize + k.length + v.length := by
    rw [Datum.Size, hd1meta]
    simp only [metaSize]
    omega
  have hd1wf : WfDatum d1 := by
    refine ⟨?_, ?_, ?_, ?_, ?_, ?_⟩
    · rw [hd1key, hd1meta]
    · rw [hd1val, hd1meta]
    · rw [hd1meta]; exact hk32
    · rw [hd1meta]; exact hv32
    · rw [hd1size]; omega
    · rw [hd1meta]; exact Or.inl rfl
  have hfset : s.file.set (d.idx + metaSize - 1) 1 = serializeRecs (markAt recs d.idx) := by
    have := serializeRecs_set_mark recs 0 d hoffs hdrec
    rw [Nat.sub_zero] at this
    rw [hfile]
    exact this
  have hLoad := Set_eq_of_load_some s k v d hl
  rcases hw : writeDeletedByte { s with data := muStore s.data k d.MarkDeleted }
      d.MarkDeleted with ⟨X, e⟩
  rw [hw] at hLoad
  cases e with
  | some err =>
    rw [hLoad] at hok
    simp at hok
  | none =>
    have hSet : s.Set k v = appendDatum X k v := hLoad
    have hXfile : X.file = s.file.set (d.idx + metaSize - 1) 1 := by
      have hh := writeDeletedByte_file { s with data := muStore s.data k d.MarkDeleted }
        d.MarkDeleted
      rw [hw] at hh
      exact hh
    have hXdata : X.data = muStore s.data k d.MarkDeleted := by
      have hh := writeDeletedByte_data { s with data := muStore s.data k d.MarkDeleted }
        d.MarkDeleted
      rw [hw] at hh
      simpa using hh
    have hXlen : X.file.length % 2 ^ 32 = s.file.length := by
      rw [hXfile, List.length_set, hmod]
    have hstate : (s.Set k v).1.file = (s.file.set (d.idx + metaSize - 1) 1) ++ d1.Bytes ∧
        (s.Set k v).1.data = muStore s.data k d1 := by
      constructor
      · rw [hSet, appendDatum_file X k v hcap, hXlen, hXfile]
      · rw [hSet, appendDatum_data, hXlen, hXdata, muStore_muStore]
    have hszmark : sizeSum (markAt recs d.idx) = sizeSum recs := sizeSum_markAt recs d.idx
    have hsz : sizeSum (markAt recs d.idx ++ [d1]) =
        sizeSum recs + (metaSize + k.length + v.length) := by
      rw [sizeSum_append, hszmark]
      simp [sizeSum, hd1size]
    refine ⟨by rw [hstate.1], ?_, hsz⟩
    refine ⟨?_, ?_, ?_, ?_, ?_, ?_, ?_⟩
    · rw [hstate.1, hfset, serializeRecs_append]
      simp [serializeRecs]
    · refine offsetsFromB_append_one _ d1 0 ?_ ?_
      · rw [offsetsFromB_markAt]
        exact hoffs
      · rw [hszmark]
        simp [hd1, hflen]
    · intro x hx
      rcases List.mem_append.mp hx with h1 | h1
      · exact WfDatum_markAt recs d.idx hwf x h1
      · rw [List.mem_singleton.mp h1]
        exact hd1wf
    · omega
    · intro x hx hxdel
      rw [hstate.2]
      rcases List.mem_append.mp hx with h1 | h1
      · obtain ⟨y, hy, hcase⟩ := mem_markAt_elim recs d.idx x h1
        rcases hcase with ⟨hyt, hxy⟩ | ⟨hyt, hxy⟩
        · rw [hxy] at hxdel
          simp at hxdel
        · subst hxy
          have hylive : x.meta.deleted = 0 := hxdel
          have hxk : x.key ≠ k := by
            intro hh
            have := hlive x hy hylive
            rw [hh, hl] at this
            have hxd : d = x := by injection this
            exact hyt (by rw [← hxd])
          rw [muLoad_muStore_other _ _ _ _ hxk]
          exact hlive x hy hylive
      · rw [List.mem_singleton.mp h1, hd1key]
        exact muLoad_muStore_self _ _ _
    · intro p hp
      rw [hstate.2] at hp
      rcases mem_muStore _ _ _ _ hp with h1 | h1
      · rw [h1]
        exact ⟨by simp, by rw [hd1meta], by rw [hd1key]⟩
      · obtain ⟨hpm, hpk⟩ := h1
        obtain ⟨ha, hb, hc⟩ := hmap p hpm
        have hpne : p.2.idx ≠ d.idx := by
          intro hh
          have := offsetsFromB_idx_inj recs 0 hoffs p.2 ha d hdrec hh
          rw [this] at hc
          rw [hdkey] at hc
          exact hpk hc.symm
        exact ⟨List.mem_append.mpr (Or.inl (mem_markAt_of_mem_ne recs d.idx p.2 ha hpne)),
          hb, hc⟩
    · rw [hstate.2]
      exact muStore_pairwise _ _ _ hnd

/-- Delete of a bound key: removes the binding and tombstones the record
on file; the state change does not depend on whether the trailing
incAndSync hangs. -/
theorem Delete_some_inv (s : Storage) (recs : List Datum) (k : List Nat) (d : Datum)
    (hInv : StoreInv s recs)
    (hl : muLoad s.data k = some d) :
    StoreInv (s.Delete k).1 (markAt recs d.idx) ∧
    sizeSum (markAt recs d.idx) = sizeSum recs := by
  obtain ⟨hfile, hoffs, hwf, hfit0, hlive, hmap, hnd⟩ := hInv
  have hdmem0 : (k, d) ∈ s.data := muLoad_eq_some_mem _ _ _ hl
  obtain ⟨hdrec, hddel, hdkey⟩ := hmap (k, d) hdmem0
  simp only at hdrec hddel hdkey
  have hfset : s.file.set (d.idx + metaSize - 1) 1 = serializeRecs (markAt recs d.idx) := by
    have := serializeRecs_set_mark recs 0 d hoffs hdrec
    rw [Nat.sub_zero] at this
    rw [hfile]
    exact this
  have hstate : (s.Delete k).1.file = s.file.set (d.idx + metaSize - 1) 1 ∧
      (s.Delete k).1.data = s.data.filter (fun p => p.1 ≠ k) := by
    rw [Delete_eq_of_load_some s k d hl]
    constructor
    · exact writeDeletedByte_file { s with data := s.data.filter (fun p => p.1 ≠ k) }
        d.MarkDeleted
    · rw [writeDeletedByte_data]
  refine ⟨?_, sizeSum_markAt recs d.idx⟩
  refine ⟨?_, ?_, ?_, ?_, ?_, ?_, ?_⟩
  · rw [hstate.1, hfset]
  · rw [offsetsFromB_markAt]
    exact hoffs
  · exact WfDatum_markAt recs d.idx hwf
  · rw [sizeSum_markAt]
    exact hfit0
  · intro x hx hxdel
    rw [hstate.2]
    obtain ⟨y, hy, hcase⟩ := mem_markAt_elim recs d.idx x hx
    rcases hcase with ⟨hyt, hxy⟩ | ⟨hyt, hxy⟩
    · rw [hxy] at hxdel
      simp at hxdel
    · subst hxy
      have hxk : x.key ≠ k := by
        intro hh
        have := hlive x hy hxdel
        rw [hh, hl] at this
        have hxd : d = x := by injection this
        exact hyt (by rw [← hxd])
      rw [muLoad_filter_other _ _ _ hxk]
      exact hlive x hy hxdel
  · intro p hp
    rw [hstate.2] at hp
    obtain ⟨hpm, hpk⟩ := mem_filter_ne _ _ _ hp
    obtain ⟨ha, hb, hc⟩ := hmap p hpm
    have hpne : p.2.idx ≠ d.idx := by
      intro hh
      have := offsetsFromB_idx_inj recs 0 hoffs p.2 ha d hdrec hh
      rw [this] at hc
      rw [hdkey] at hc
      exact hpk hc.symm
    exact ⟨mem_markAt_of_mem_ne recs d.idx p.2 ha hpne, hb, hc⟩
  · rw [hstate.2]
    exact filter_pairwise _ _ hnd

/-- Delete of an unbound key does not change the state at all. -/
theorem Delete_none_inv (s : Storage) (recs : List Datum) (k : List Nat)
    (hInv : StoreInv s recs) (hl : muLoad s.data k = none) :
    (s.Delete k).2 = none ∧ StoreInv (s.Delete k).1 recs ∧
    (s.Delete k).1.config = s.config := by
  rw [Delete_eq_of_load_none s k hl]
  exact ⟨rfl, hInv, rfl⟩

/-- Replaying any sequence of operations in which every operation returns
a nil error - that is, any completed execution - preserves the store
invariant, provided the appended bytes keep the file within 32 bits.  No
inline vacuum can have run in such a replay: a vacuum trigger is the
self-deadlock, which would have made its operation fail the allOk
premise. -/
theorem runOps_inv (ops : List Op) : ∀ (s : Storage) (recs : List Datum),
    StoreInv s recs → allOk s ops = true →
    sizeSum recs + setBytes ops < 2 ^ 32 →
    ∃ recs2, StoreInv (runOps s ops) recs2 := by
  induction ops with
  | nil =>
    intro s recs hInv _ _
    exact ⟨recs, hInv⟩
  | cons op rest ih =>
    intro s recs hInv hok hfit
    rcases ha : applyOp s op with ⟨s1, e⟩
    have hok2 : e.isNone = true ∧ allOk s1 rest = true := by
      rw [allOk, ha] at hok
      simp only at hok
      exact (Bool.and_eq_true ..).mp hok
    have he : e = none := Option.isNone_iff_eq_none.mp hok2.1
    have hrun : runOps s (op :: rest) = runOps s1 rest := by
      simp [runOps, ha]
    rw [hrun]
    cases op with
    | set k v =>
      have hfit1 : sizeSum recs + (metaSize + k.length + v.length) < 2 ^ 32 := by
        rw [setBytes] at hfit
        omega
      have hs1 : s1 = (s.Set k v).1 := by
        have hap : applyOp s (.set k v) = s.Set k v := rfl
        rw [hap] at ha
        rw [ha]
      cases hl : muLoad s.data k with
      | none =>
        obtain ⟨hInv2, hsz⟩ := Set_none_inv s recs k v
          ⟨hInv.1, hInv.2.1, hInv.2.2.1, hInv.2.2.2.1, hInv.2.2.2.2.1,
            hInv.2.2.2.2.2.1, hInv.2.2.2.2.2.2⟩ hl hfit1
        rw [hs1]
        refine ih (s.Set k v).1 _ hInv2 ?_ ?_
        · rw [← hs1]
          exact hok2.2
        · rw [hsz]
          rw [setBytes] at hfit
          omega
      | some d =>
        have hsucc : (s.Set k v).2 = none := by
          have hap : applyOp s (.set k v) = s.Set k v := rfl
          rw [hap] at ha
          rw [ha]
          exact he
        obtain ⟨_, hInv2, hsz⟩ := Set_some_ok s recs k v d
          ⟨hInv.1, hInv.2.1, hInv.2.2.1, hInv.2.2.2.1, hInv.2.2.2.2.1,
            hInv.2.2.2.2.2.1, hInv.2.2.2.2.2.2⟩ hl hfit1 hsucc
        rw [hs1]
        refine ih (s.Set k v).1 _ hInv2 ?_ ?_
        · rw [← hs1]
          exact hok2.2
        · rw [hsz]
          rw [setBytes] at hfit
          omega
    | del k =>
      have hs1 : s1 = (s.Delete k).1 := by
        have hap : applyOp s (.del k) = s.Delete k := rfl
        rw [hap] at ha
        rw [ha]
      cases hl : muLoad s.data k with
      | none =>
        obtain ⟨_, hInv2, _⟩ := Delete_none_inv s recs k
          ⟨hInv.1, hInv.2.1, hInv.2.2.1, hInv.2.2.2.1, hInv.2.2.2.2.1,
            hInv.2.2.2.2.2.1, hInv.2.2.2.2.2.2⟩ hl
        rw [hs1]
        refine ih (s.Delete k).1 recs hInv2 ?_ ?_
        · rw [← hs1]
          exact hok2.2
        · rw [setBytes] at hfit
          omega
      | some d =>
        obtain ⟨hInv2, hsz⟩ := Delete_some_inv s recs k d
          ⟨hInv.1, hInv.2.1, hInv.2.2.1, hInv.2.2.2.1, hInv.2.2.2.2.1,
            hInv.2.2.2.2.2.1, hInv.2.2.2.2.2.2⟩ hl
        rw [hs1]
        refine ih (s.Delete k).1 _ hInv2 ?_ ?_
        · rw [← hs1]
          exact hok2.2
        · rw [hsz]
          rw [setBytes] at hfit
          omega

/-- A store satisfying the invariant re-opens to an index with exactly
the same bindings: the scan installs the live records, later occurrences
winning, and tombstoned records are never indexed. -/
theorem NewStorage_of_inv (s : Storage) (recs : List Datum) (hInv : StoreInv s recs)
    (cfg : Option Config) :
    ∃ t, NewStorage s.file cfg = .ok t ∧
      ∀ k, muLoad t.data k = muLoad s.data k := by
  obtain ⟨hfile, hoffs, hwf, hfit, hlive, hmap, hnd⟩ := hInv
  rw [NewStorage, hfile, readAll_serialize recs 0 hwf]
  have hscan : scanOut recs 0 = recs.filter (fun x => x.Deleted != 1) :=
    scanOut_eq_filter recs 0 hoffs (by omega)
  refine ⟨_, rfl, ?_⟩
  intro k
  simp only
  rw [muLoad_foldStore, hscan]
  cases hl : muLoad s.data k with
  | some d =>
    have hdmem0 : (k, d) ∈ s.data := muLoad_eq_some_mem _ _ _ hl
    obtain ⟨hdrec, hddel, hdkey⟩ := hmap (k, d) hdmem0
    simp only at hdrec hddel hdkey
    have hdfil : d ∈ recs.filter (fun x => x.Deleted != 1) :=
      List.mem_filter.mpr ⟨hdrec, by simp [Datum.Deleted, hddel]⟩
    have hfind : ((recs.filter (fun x => x.Deleted != 1)).reverse.find?
        (fun x => decide (x.key = k))) = some d := by
      cases hf : ((recs.filter (fun x => x.Deleted != 1)).reverse.find?
          (fun x => decide (x.key = k))) with
      | none =>
        rw [List.find?_eq_none] at hf
        exact absurd (by simp [hdkey] : decide (d.key = k) = true)
          (hf d (List.mem_reverse.mpr hdfil))
      | some x =>
        have hxmem := List.mem_reverse.mp (List.mem_of_find?_eq_some hf)
        have hxk : x.key = k := by simpa using List.find?_some hf
        obtain ⟨hxr, hxdel⟩ := List.mem_filter.mp hxmem
        have hxlive : x.meta.deleted = 0 := by
          rcases (hwf x hxr).2.2.2.2.2 with h0 | h1
          · exact h0
          · simp [Datum.Deleted, h1] at hxdel
        have := hlive x hxr hxlive
        rw [hxk, hl] at this
        have hxd : x = d := by
          injection this with h3
          exact h3.symm
        rw [hxd]
    rw [hfind]
  | none =>
    have hfind : ((recs.filter (fun x => x.Deleted != 1)).reverse.find?
        (fun x => decide (x.key = k))) = none := by
      rw [List.find?_eq_none]
      intro x hx
      obtain ⟨hxr, hxdel⟩ := List.mem_filter.mp (List.mem_reverse.mp hx)
      have hxlive : x.meta.deleted = 0 := by
        rcases (hwf x hxr).2.2.2.2.2 with h0 | h1
        · exact h0
        · simp [Datum.Deleted, h1] at hxdel
      intro hxk
      have := hlive x hxr hxlive
      rw [show x.key = k by simpa using hxk, hl] at this
      cases this
    rw [hfind]
    rfl

/-- C3: for every sequence of Set and Delete operations applied to a
store opened on an empty file, after Close a re-Open of the same path
succeeds and yields an index with exactly the same bindings as the index
before Close: the open-time scan installs each live record keyed by its
key, later occurrences replacing earlier ones, and tombstoned records
are consumed but never indexed (NewStorage_of_inv).  An operation that
trips the inline-vacuum threshold never returns in the source (the
self-deadlock of incAndSync), so a replay that reaches Close is one in
which every operation returned a nil error - the hypothesis allOk; the
32-bit offset arithmetic additionally requires the appended data to stay
below 2^32 bytes. -/
theorem C3_durability (cfg : Config) (s0 : Storage) (ops : List Op) (cfg2 : Option Config)
    (hopen : NewStorage [] (some cfg) = .ok s0)
    (hok : allOk s0 ops = true) (hfit : setBytes ops < 2 ^ 32) :
    ∃ t, NewStorage ((runOps s0 ops).Close.1.file) cfg2 = .ok t ∧
      ∀ k, muLoad t.data k = muLoad (runOps s0 ops).data k := by
  have hlit : NewStorage [] (some cfg) =
      .ok { file := [], data := [], idx := 0, writeCountSync := 0,
            writeCountVacuum := 0, config := cfg } := rfl
  rw [hlit] at hopen
  have hinit : s0 =
      { file := [], data := [], idx := 0, writeCountSync := 0,
        writeCountVacuum := 0, config := cfg } := (Except.ok.inj hopen).symm
  subst hinit
  have hInv0 : StoreInv
      { file := [], data := [], idx := 0, writeCountSync := 0,
        writeCountVacuum := 0, config := cfg } [] := by
    refine ⟨rfl, rfl, ?_, ?_, ?_, ?_, ?_⟩
    · intro d hd; cases hd
    · simp [sizeSum]
    · intro d hd; cases hd
    · intro p hp; cases hp
    · exact List.Pairwise.nil
  obtain ⟨recs2, hInv2⟩ := runOps_inv ops _ [] hInv0 hok (by simpa [sizeSum] using hfit)
  exact NewStorage_of_inv _ recs2 hInv2 cfg2

/-- Witness: a three-operation run replayed through the C3 theorem. -/
theorem C3_durability_witness :
    ∃ t, NewStorage ((runOps
        { file := [], data := [], idx := 0, writeCountSync := 0,
          writeCountVacuum := 0, config := { VacuumBatch := 0, FsyncBatch := 0 } }
        [.set [97] [1, 2, 3], .set [98] [4, 5, 6], .del [97]]).Close.1.file) none = .ok t ∧
      ∀ k, muLoad t.data k =
        muLoad (runOps
          { file := [], data := [], idx := 0, writeCountSync := 0,
            writeCountVacuum := 0, config := { VacuumBatch := 0, FsyncBatch := 0 } }
          [.set [97] [1, 2, 3], .set [98] [4, 5, 6], .del [97]]).data k :=
  C3_durability { VacuumBatch := 0, FsyncBatch := 0 } _
    [.set [97] [1, 2, 3], .set [98] [4, 5, 6], .del [97]] none rfl (by decide) (by decide)

/-- C7: for every Set of a key already in the index, on a reachable
store (StoreInv) whose data stays below 2^32 bytes, when the Set returns
the single tombstone byte 1 has been written at the old record's offset
plus 8 strictly before the fresh record was appended at the end of the
file, and the resulting file never holds two non-tombstoned records for
the same key.  A Set that trips the inline-vacuum threshold never
returns (self-deadlock) - and even then the tombstone was written and no
append happened, so the ordering is never violated; the success
hypothesis states that the Set returned. -/
theorem C7_tombstone_first (s : Storage) (recs : List Datum) (k v : List Nat) (d : Datum)
    (hInv : StoreInv s recs)
    (hl : muLoad s.data k = some d)
    (hfit : sizeSum recs + (metaSize + k.length + v.length) < 2 ^ 32)
    (hok : (s.Set k v).2 = none) :
    (s.Set k v).1.file = (s.file.set (d.idx + metaSize - 1) 1) ++
      Datum.Bytes { newDatum.Set k v with idx := s.file.length } ∧
    ∃ recs2, StoreInv (s.Set k v).1 recs2 ∧ OneLivePerKey recs2 := by
  obtain ⟨h1, h2, _⟩ := Set_some_ok s recs k v d hInv hl hfit hok
  exact ⟨h1, _, h2, StoreInv_oneLive _ _ h2⟩

/-- Witness: overwriting the live key 98 of the concrete two-record store
through the C7 theorem. -/
theorem C7_tombstone_first_witness :
    (storeAB.Set [98] [9]).1.file = (storeAB.file.set (13 + metaSize - 1) 1) ++
      Datum.Bytes { newDatum.Set [98] [9] with idx := storeAB.file.length } ∧
    ∃ recs2, StoreInv (storeAB.Set [98] [9]).1 recs2 ∧ OneLivePerKey recs2 :=
  C7_tombstone_first storeAB
    [{ meta := ⟨1, 3, 1⟩, key := [97], value := [1, 2, 3], idx := 0 },
     { meta := ⟨1, 3, 0⟩, key := [98], value := [4, 5, 6], idx := 13 }]
    [98] [9] { meta := ⟨1, 3, 0⟩, key := [98], value := [4, 5, 6], idx := 13 }
    (by refine ⟨by decide, by decide, by decide, by decide, by decide, by decide, ?_⟩
        decide)
    (by decide) (by decide) (by decide)

/-- Set in the failed-append run, on a bound key: the reclaim phase runs,
then the fresh datum is installed and the write fails. -/
theorem SetWriteFails_eq_of_load_some (s : Storage) (k v : List Nat) (d : Datum)
    (hl : muLoad s.data k = some d) :
    s.SetWriteFails k v =
      (match writeDeletedByte { s with data := muStore s.data k d.MarkDeleted }
          d.MarkDeleted with
       | (s1, some err) => (s1, some (.reclaimingSpace err))
       | (s1, none) =>
         ({ s1 with data := muStore s1.data k { newDatum.Set k v with idx := s1.file.length % 2 ^ 32 } },
          some .writeFailed)) := by
  rw [Storage.SetWriteFails, hl]
  simp only
  rcases hw : writeDeletedByte { s with data := muStore s.data k d.MarkDeleted }
      d.MarkDeleted with ⟨s1, e⟩
  cases e <;> rfl

/-- Set in the failed-append run, on an unbound key. -/
theorem SetWriteFails_eq_of_load_none (s : Storage) (k v : List Nat)
    (hl : muLoad s.data k = none) :
    s.SetWriteFails k v =
      ({ s with data := muStore s.data k { newDatum.Set k v with idx := s.file.length % 2 ^ 32 } },
       some .writeFailed) := by
  rw [Storage.SetWriteFails, hl]

theorem getD_set_self (l : List Nat) (n a : Nat) (h : n < l.length) :
    (l.set n a).getD n 0 = a := by
  rw [List.getD_eq_getElem?_getD, List.getElem?_set_self]
  · simp [List.getElem?_eq_getElem (by omega : n < l.length)]
  · omega

/-- C10: Set installs the new descriptor in the index before the file
write: when the append fails, Set returns an error yet Get returns the
new value with true, and when the key previously existed its old on-disk
record has already been tombstoned while the file gained no bytes; when
it did not exist, the file is untouched entirely.  The index is never
rolled back. -/
theorem C10_failed_append (s : Storage) (recs : List Datum) (k v : List Nat) (d : Datum)
    (hInv : StoreInv s recs) (hvb : s.config.VacuumBatch = 0)
    (hl : muLoad s.data k = some d) :
    (∃ s2, s.SetWriteFails k v = (s2, some .writeFailed) ∧
      s2.Get k = (v, true) ∧
      s2.file.getD (d.idx + metaSize - 1) 0 = 1 ∧
      s2.file.length = s.file.length) ∧
    (∀ k2 v2, muLoad s.data k2 = none →
      (s.SetWriteFails k2 v2).2 = some .writeFailed ∧
      (s.SetWriteFails k2 v2).1.Get k2 = (v2, true) ∧
      (s.SetWriteFails k2 v2).1.file = s.file) := by
  obtain ⟨hfile, hoffs, hwf, hfit0, hlive, hmap, hnd⟩ := hInv
  constructor
  · have hdmem0 : (k, d) ∈ s.data := muLoad_eq_some_mem _ _ _ hl
    obtain ⟨hdrec, _, _⟩ := hmap (k, d) hdmem0
    simp only at hdrec
    have hub := offsetsFromB_mem_ub recs 0 hoffs d hdrec
    have hsz : metaSize ≤ d.Size := Datum.Size_ge d
    have hflen : s.file.length = sizeSum recs := by rw [hfile, serializeRecs_length]
    have hpos : d.idx + metaSize - 1 < s.file.length := by
      rw [hflen]
      simp only [metaSize] at hsz ⊢
      omega
    rw [SetWriteFails_eq_of_load_some s k v d hl,
      writeDeletedByte_vb0 { s with data := muStore s.data k d.MarkDeleted }
        d.MarkDeleted hvb]
    simp only
    refine ⟨_, rfl, ?_, ?_, ?_⟩
    · rw [Storage.Get]
      simp only [muStore_muStore]
      rw [muLoad_muStore_self]
      simp [newDatum_Set_value]
    · have hidx1 : (d.MarkDeleted).idx = d.idx := rfl
      have hdel1 : (d.MarkDeleted).Deleted = 1 := rfl
      simp only [hidx1, hdel1]
      exact getD_set_self s.file (d.idx + metaSize - 1) 1 hpos
    · simp [List.length_set]
  · intro k2 v2 hl2
    rw [SetWriteFails_eq_of_load_none s k2 v2 hl2]
    refine ⟨rfl, ?_, rfl⟩
    rw [Storage.Get]
    rw [muLoad_muStore_self]
    simp [newDatum_Set_value]

/-- Witness: the failed-append analysis on the concrete two-record store,
overwriting the live key 98. -/
theorem C10_failed_append_witness :
    (∃ s2, storeAB.SetWriteFails [98] [9] = (s2, some .writeFailed) ∧
      s2.Get [98] = ([9], true) ∧
      s2.file.getD (13 + metaSize - 1) 0 = 1 ∧
      s2.file.length = storeAB.file.length) ∧
    (∀ k2 v2, muLoad storeAB.data k2 = none →
      (storeAB.SetWriteFails k2 v2).2 = some .writeFailed ∧
      (storeAB.SetWriteFails k2 v2).1.Get k2 = (v2, true) ∧
      (storeAB.SetWriteFails k2 v2).1.file = storeAB.file) :=
  C10_failed_append storeAB
    [{ meta := ⟨1, 3, 1⟩, key := [97], value := [1, 2, 3], idx := 0 },
     { meta := ⟨1, 3, 0⟩, key := [98], value := [4, 5, 6], idx := 13 }]
    [98] [9] { meta := ⟨1, 3, 0⟩, key := [98], value := [4, 5, 6], idx := 13 }
    (by refine ⟨by decide, by decide, by decide, by decide, by decide, by decide, ?_⟩
        decide)
    (by decide) (by decide)

/-- One live step of the snapshot write loop. -/
theorem snapshotWrites_cons_live (k : List Nat) (d : Datum) (rest : MuMap) (off : Nat)
    (h : d.meta.deleted = 0) :
    snapshotWrites ((k, d) :: rest) off =
      (Datum.Bytes { d with idx := off % 2 ^ 32 } ++
         (snapshotWrites rest (off + d.Size)).1,
       (k, { d with idx := off % 2 ^ 32 }) ::
         (snapshotWrites rest (off + d.Size)).2) := by
  have hne : d.Deleted ≠ 1 := by simp [Datum.Deleted, h]
  have hb : (Datum.Bytes { d with idx := off % 2 ^ 32 }).length = d.Size := by
    rw [Datum.Bytes_length]
    rfl
  simp only [snapshotWrites]
  rw [if_pos hne, hb]

/-- The snapshot write loop on an all-live well-formed index: the bytes
serialise the stamped entries, the stamped entries sit at their stamped
offsets, keys and values are untouched, and the total size is preserved. -/
theorem snapshotWrites_spec (m : MuMap) (off : Nat)
    (hlive : ∀ p ∈ m, p.2.meta.deleted = 0)
    (hwfm : ∀ p ∈ m, WfDatum p.2)
    (hkeys : ∀ p ∈ m, p.2.key = p.1)
    (hfit : off + sizeSum (m.map (fun p => p.2)) < 2 ^ 32) :
    (snapshotWrites m off).1 =
      serializeRecs ((snapshotWrites m off).2.map (fun p => p.2)) ∧
    offsetsFromB ((snapshotWrites m off).2.map (fun p => p.2)) off = true ∧
    ((snapshotWrites m off).2.map (fun p => (p.1, keyVal p.2)) =
      m.map (fun p => (p.1, keyVal p.2))) ∧
    (∀ p ∈ (snapshotWrites m off).2,
      p.2.meta.deleted = 0 ∧ WfDatum p.2 ∧ p.2.key = p.1) ∧
    sizeSum ((snapshotWrites m off).2.map (fun p => p.2)) =
      sizeSum (m.map (fun p => p.2)) := by
  induction m generalizing off with
  | nil =>
    refine ⟨rfl, rfl, rfl, ?_, rfl⟩
    intro p hp; cases hp
  | cons q rest ih =>
    obtain ⟨k, d⟩ := q
    have hd0 : d.meta.deleted = 0 := hlive (k, d) (List.mem_cons_self _ _)
    have hsz : sizeSum (((k, d) :: rest).map (fun p => p.2)) =
        d.Size + sizeSum (rest.map (fun p => p.2)) := by
      simp [sizeSum]
    have hoff : off % 2 ^ 32 = off := Nat.mod_eq_of_lt (by rw [hsz] at hfit; omega)
    have hfit2 : off + d.Size + sizeSum (rest.map (fun p => p.2)) < 2 ^ 32 := by
      rw [hsz] at hfit; omega
    obtain ⟨ih1, ih2, ih3, ih4, ih5⟩ := ih (off + d.Size)
      (fun p hp => hlive p (List.mem_cons_of_mem _ hp))
      (fun p hp => hwfm p (List.mem_cons_of_mem _ hp))
      (fun p hp => hkeys p (List.mem_cons_of_mem _ hp))
      hfit2
    rw [snapshotWrites_cons_live k d rest off hd0, hoff]
    refine ⟨?_, ?_, ?_, ?_, ?_⟩
    · simp only [List.map_cons, serializeRecs_cons]
      rw [ih1]
    · simp only [List.map_cons, offsetsFromB]
      have hsame : Datum.Size { d with idx := off } = d.Size := rfl
      rw [Bool.and_eq_true]
      exact ⟨by simp, by rw [hsame]; exact ih2⟩
    · simp only [List.map_cons, List.cons.injEq]
      exact ⟨rfl, ih3⟩
    · intro p hp
      rcases List.mem_cons.mp hp with h1 | h1
      · subst h1
        refine ⟨hd0, ?_, ?_⟩
        · have := hwfm (k, d) (List.mem_cons_self _ _)
          exact this
        · exact hkeys (k, d) (List.mem_cons_self _ _)
      · exact ih4 p h1
    · simp only [List.map_cons]
      have hsame : Datum.Size { d with idx := off } = d.Size := rfl
      simp only [sizeSum, List.map_cons, List.sum_cons] at ih5 ⊢
      rw [hsame, ih5]

/-- Index lookups only depend on the keys and the key/value fields. -/
theorem muLoad_map_keyVal (m1 m2 : MuMap) (k : List Nat)
    (h : m1.map (fun p => (p.1, keyVal p.2)) = m2.map (fun p => (p.1, keyVal p.2))) :
    (muLoad m1 k).map keyVal = (muLoad m2 k).map keyVal := by
  induction m1 generalizing m2 with
  | nil =>
    cases m2 with
    | nil => rfl
    | cons q m2' => simp at h
  | cons p m1' ih =>
    cases m2 with
    | nil => simp at h
    | cons q m2' =>
      simp only [List.map_cons, List.cons.injEq] at h
      obtain ⟨hhd, htl⟩ := h
      injection hhd with hfst hkv
      rw [muLoad_cons, muLoad_cons]
      by_cases hk : p.1 = k
      · rw [if_pos hk, if_pos (hfst.symm.trans hk)]
        simp [hkv]
      · rw [if_neg hk, if_neg (fun hq => hk (hfst.trans hq))]
        exact ih m2' htl

/-- Replaying an index whose datums carry their keys through the open-time
fold rebuilds the same index. -/
theorem muLoad_foldStore_entries (entries : MuMap) (k : List Nat)
    (hkeysE : ∀ p ∈ entries, p.2.key = p.1)
    (hndE : List.Pairwise (fun p q => p.1 ≠ q.1) entries) :
    muLoad ((entries.map (fun p => p.2)).foldl (fun m d => muStore m d.key d) []) k =
      muLoad entries k := by
  rw [muLoad_foldStore]
  cases hl : muLoad entries k with
  | some d =>
    have hdmem : (k, d) ∈ entries := muLoad_eq_some_mem _ _ _ hl
    have hdk : d.key = k := hkeysE (k, d) hdmem
    have hdD : d ∈ entries.map (fun p => p.2) :=
      List.mem_map.mpr ⟨(k, d), hdmem, rfl⟩
    have hfind : ((entries.map (fun p => p.2)).reverse.find?
        (fun x => decide (x.key = k))) = some d := by
      cases hf : ((entries.map (fun p => p.2)).reverse.find?
          (fun x => decide (x.key = k))) with
      | none =>
        rw [List.find?_eq_none] at hf
        exact absurd (by simp [hdk] : decide (d.key = k) = true)
          (hf d (List.mem_reverse.mpr hdD))
      | some x =>
        have hxmem := List.mem_reverse.mp (List.mem_of_find?_eq_some hf)
        have hxk : x.key = k := by simpa using List.find?_some hf
        obtain ⟨p, hp, hpx⟩ := List.mem_map.mp hxmem
        have hpk : p.1 = k := by
          have := hkeysE p hp
          rw [hpx] at this
          exact this.symm.trans hxk
        have hpq : p = (k, d) :=
          pairwise_keys_unique entries hndE p hp (k, d) hdmem hpk
        rw [← hpx, hpq]
    rw [hfind]
  | none =>
    have hnf : entries.find? (fun p => p.1 = k) = none := by
      rw [muLoad] at hl
      exact Option.map_eq_none'.mp hl
    rw [List.find?_eq_none] at hnf
    have hfind : ((entries.map (fun p => p.2)).reverse.find?
        (fun x => decide (x.key = k))) = none := by
      rw [List.find?_eq_none]
      intro x hx
      obtain ⟨p, hp, hpx⟩ := List.mem_map.mp (List.mem_reverse.mp hx)
      have hpk := hnf p hp
      simp only [decide_eq_true_eq] at hpk ⊢
      intro hxk
      exact hpk (by rw [← (hkeysE p hp), hpx, hxk])
    rw [hfind]
    rfl

/-- C5 amended: Snapshot leaves the source file untouched and preserves
every key and value of the source index, and opening the snapshot bytes
succeeds and yields an index with the same keys and values as the source;
only the offset fields of the shared source descriptors are restamped. -/
theorem C5_amended (s : Storage) (recs : List Datum) (cfg2 : Option Config)
    (hInv : StoreInv s recs) :
    (s.Snapshot).2.file = s.file ∧
    (∀ k, (muLoad (s.Snapshot).2.data k).map keyVal = (muLoad s.data k).map keyVal) ∧
    ∃ t, NewStorage (s.Snapshot).1 cfg2 = .ok t ∧
      ∀ k, (muLoad t.data k).map keyVal = (muLoad s.data k).map keyVal := by
  obtain ⟨hfile, hoffs, hwf, hfit, hlive, hmap, hnd⟩ := hInv
  have hliveD : ∀ p ∈ s.data, p.2.meta.deleted = 0 := fun p hp => (hmap p hp).2.1
  have hwfD : ∀ p ∈ s.data, WfDatum p.2 := fun p hp => hwf p.2 (hmap p hp).1
  have hkeysD : ∀ p ∈ s.data, p.2.key = p.1 := fun p hp => (hmap p hp).2.2
  have hndD : (s.data.map (fun p => p.2)).Nodup := by
    change List.Pairwise (fun a b => a ≠ b) (s.data.map (fun p => p.2))
    rw [List.pairwise_map]
    refine hnd.imp_of_mem ?_
    intro p q hp hq hne heq
    exact hne (((hkeysD p hp).symm.trans (by rw [heq])).trans (hkeysD q hq))
  have hsubD : s.data.map (fun p => p.2) ⊆ recs := by
    intro x hx
    obtain ⟨p, hp, hpx⟩ := List.mem_map.mp hx
    exact hpx ▸ (hmap p hp).1
  have hfitd : sizeSum (s.data.map (fun p => p.2)) < 2 ^ 32 := by
    obtain ⟨l, hperm, hsl⟩ := List.subperm_of_subset hndD hsubD
    have h1 : sizeSum (s.data.map (fun p => p.2)) = (l.map Datum.Size).sum :=
      ((hperm.map Datum.Size).sum_eq).symm
    have h2 : (l.map Datum.Size).sum ≤ (recs.map Datum.Size).sum :=
      (hsl.map Datum.Size).sum_le_sum (fun a _ => Nat.zero_le a)
    have h3 : (recs.map Datum.Size).sum = sizeSum recs := rfl
    omega
  obtain ⟨hB, hoffsE, hkvE, hpropE, hszE⟩ :=
    snapshotWrites_spec s.data 0 hliveD hwfD hkeysD (by simpa using hfitd)
  have hsnap1 : (s.Snapshot).1 = (snapshotWrites s.data 0).1 := rfl
  have hsnap2 : (s.Snapshot).2.data = (snapshotWrites s.data 0).2 := rfl
  have hsnap3 : (s.Snapshot).2.file = s.file := rfl
  refine ⟨hsnap3, ?_, ?_⟩
  · intro k
    rw [hsnap2]
    exact muLoad_map_keyVal _ _ k hkvE
  · have hwfE : ∀ dd ∈ (snapshotWrites s.data 0).2.map (fun p => p.2), WfDatum dd := by
      intro dd hdd
      obtain ⟨p, hp, hpd⟩ := List.mem_map.mp hdd
      exact hpd ▸ (hpropE p hp).2.1
    have hkeysE : ∀ p ∈ (snapshotWrites s.data 0).2, p.2.key = p.1 :=
      fun p hp => (hpropE p hp).2.2
    have hndE : List.Pairwise (fun p q => p.1 ≠ q.1) (snapshotWrites s.data 0).2 := by
      have hkeysList : (snapshotWrites s.data 0).2.map (fun p => p.1) =
          s.data.map (fun p => p.1) := by
        have := congrArg (List.map Prod.fst) hkvE
        simpa [List.map_map, Function.comp] using this
      rw [← List.pairwise_map (f := fun p : List Nat × Datum => p.1)]
      rw [hkeysList]
      exact (List.pairwise_map (f := fun p : List Nat × Datum => p.1)).mpr hnd
    have hscan : scanOut ((snapshotWrites s.data 0).2.map (fun p => p.2)) 0 =
        ((snapshotWrites s.data 0).2.map (fun p => p.2)).filter
          (fun x => x.Deleted != 1) := by
      refine scanOut_eq_filter _ 0 hoffsE ?_
      rw [hszE]
      simpa using hfitd
    have hfilter : ((snapshotWrites s.data 0).2.map (fun p => p.2)).filter
        (fun x => x.Deleted != 1) = (snapshotWrites s.data 0).2.map (fun p => p.2) := by
      apply List.filter_eq_self.mpr
      intro x hx
      obtain ⟨p, hp, hpx⟩ := List.mem_map.mp hx
      have h0 := (hpropE p hp).1
      simp [← hpx, Datum.Deleted, h0]
    rw [hsnap1, hB, NewStorage, readAll_serialize _ 0 hwfE]
    refine ⟨_, rfl, ?_⟩
    intro k
    simp only
    rw [hscan, hfilter, muLoad_foldStore_entries _ k hkeysE hndE]
    exact muLoad_map_keyVal _ _ k hkvE

/-- Witness: the snapshot analysis on the concrete two-record store. -/
theorem C5_amended_witness :
    (storeAB.Snapshot).2.file = storeAB.file ∧
    (∀ k, (muLoad (storeAB.Snapshot).2.data k).map keyVal =
      (muLoad storeAB.data k).map keyVal) ∧
    ∃ t, NewStorage (storeAB.Snapshot).1 none = .ok t ∧
      ∀ k, (muLoad t.data k).map keyVal = (muLoad storeAB.data k).map keyVal :=
  C5_amended storeAB
    [{ meta := ⟨1, 3, 1⟩, key := [97], value := [1, 2, 3], idx := 0 },
     { meta := ⟨1, 3, 0⟩, key := [98], value := [4, 5, 6], idx := 13 }]
    none
    (by refine ⟨by decide, by decide, by decide, by decide, by decide, by decide, ?_⟩
        decide)

/-! Counterexamples -/

/-- C2: after Set 97, Set 98, Delete 97 and a completed vacuum, the index
still maps key 98 to offset 13, yet the compacted file is 13 bytes long
and its only record, with key 98, starts at offset 0: vacuum does not
replace surviving offsets with their new locations, so no record starts
at the indexed offset. -/
theorem C2_vacuum_stale_offset :
    (Storage.vacuum storeAB).2 = none ∧
    muLoad (Storage.vacuum storeAB).1.data [98] =
      some { meta := ⟨1, 3, 0⟩, key := [98], value := [4, 5, 6], idx := 13 } ∧
    readAll (Storage.vacuum storeAB).1.file 0 =
      .ok ([{ meta := ⟨1, 3, 0⟩, key := [98], value := [4, 5, 6], idx := 0 }], 13) ∧
    (Storage.vacuum storeAB).1.file.length = 13 ∧
    (13 : Nat) ≠ 0 := by
  refine ⟨by decide, by decide, rfl, by decide, by decide⟩

/-- C5: the claim fails as stated.  Snapshot writes each live record
through writeDatumToFile, which stamps the shared descriptor with its
offset in the snapshot file: here the source descriptor of key 98 has
offset 13 before Snapshot and offset 0 after it, so the source index is
not left unchanged. -/
theorem C5_counterexample :
    muLoad storeAB.data [98] =
      some { meta := ⟨1, 3, 0⟩, key := [98], value := [4, 5, 6], idx := 13 } ∧
    muLoad (Storage.Snapshot storeAB).2.data [98] =
      some { meta := ⟨1, 3, 0⟩, key := [98], value := [4, 5, 6], idx := 0 } ∧
    (Storage.Snapshot storeAB).2 ≠ storeAB := by
  refine ⟨by decide, by decide, by decide⟩

/-- C6: the claim fails as stated.  A file that is zero well-formed
records followed by the complete 9-byte header with key size 1, value
size 0 and deleted byte 1, and no further bytes (fewer than the 1
advertised), is opened successfully: the scan skips the tombstoned header
by seeking past the end and reports EOF, so Open does not fail. -/
theorem C6_counterexample :
    NewStorage [1, 0, 0, 0, 0, 0, 0, 0, 1] none =
      .ok { file := [1, 0, 0, 0, 0, 0, 0, 0, 1], data := [], idx := 10,
            writeCountSync := 0, writeCountVacuum := 0, config := defaultConfig } := rfl

end Bugfruit
